import Mathlib

/-!
Verification of the cryptanalytic core of the paranoid_crypto library.

This file gives a shallow embedding, in Lean 4, of the number-theoretic and
orchestration functions of the library (BatchGCD, FermatFactor,
FactorWithGuess, Sqrt2exp and its 2-adic helpers, GetLattice, the Cr50-U2F
guess extraction, TestInfo bookkeeping, the check registries, and
CombinedPValue), and proves or refutes the specified properties of those
functions.  Python arbitrary-precision integers are modelled as Nat or Int
(Python `%` with a positive modulus agrees with Int.emod, Python `//` with a
positive divisor agrees with Int.ediv / Nat division); Python tuples, lists
and sets are modelled as products, lists and finite sets; functions that can
raise are modelled with Option or Except.
-/

namespace Paranoid

/-! ## Python integer helpers -/

/-- Fuel-driven helper for bit length; the fuel is consumed once per halving,
so fuel equal to the input always suffices. -/
def bitLenAux : Nat → Nat → Nat
  | 0, _ => 0
  | fuel + 1, n => if n = 0 then 0 else bitLenAux fuel (n / 2) + 1

/-- Python int.bit_length() for nonnegative integers:
the number of binary digits, with bit_length 0 = 0. -/
def bitLength (n : Nat) : Nat := bitLenAux n n

/-- Fuel-driven extended Euclidean algorithm.  egcd fuel a b returns
(g, x, y) with x * a + y * b = g; once the fuel dominates the number of
division steps (fuel larger than b suffices for nonnegative inputs),
g is gcd a b. -/
def egcd : Nat → Int → Int → Int × Int × Int
  | 0, a, _ => (a, 1, 0)
  | fuel + 1, a, b =>
    if b = 0 then (a, 1, 0)
    else
      let q := a / b
      let r := a % b
      let (g, x, y) := egcd fuel b r
      (g, y, x - q * y)

/-- Modular inverse, as computed by gmpy.invert(a, n): for n positive and
a coprime to n this returns the inverse of a modulo n in [0, n). -/
def invert (a n : Nat) : Nat := (((egcd (n + 1) (a : Int) (n : Int)).2.1) % (n : Int)).toNat

/-! ## CombinedPValue (randomness_tests/util.py) -/

/-- Embeds CombinedPValue from randomness_tests/util.py.  Python p-values are
floats; they are modelled as rationals.  The Fisher-combination branch
computes s = -sum(log p) and the upper incomplete gamma tail Igamc(len, s)
with real-valued special functions; that branch is modelled by the explicit
function argument fisher, over which all statements quantify.  The branches
that decide which case applies are translated exactly; the ValueError raised
on an empty list is modelled as Except.error. -/
def CombinedPValue (fisher : List ℚ → ℚ) (pvalues : List ℚ) : Except String ℚ :=
  if pvalues = [] then .error "empty sample"
  else if pvalues.length = 1 then .ok pvalues.head!
  else if pvalues.min? = some 0 then .ok 0
  else .ok (fisher pvalues)

/-! ## Cr50 U2F weakness (cr50_u2f_weakness.py) -/

/-- Embeds Cr50U2fSubProblem from cr50_u2f_weakness.py.  The function builds
a lattice and hands it to lll.reduce, an external dependency; the rows of the
reduced basis are therefore modelled by the explicit argument reducedRows,
over which all statements quantify.  From each reduced row the candidate pair
(k1, k2) is reconstructed exactly as in the source: k1 is the absolute value
of the inner product of the basis with the first `words` entries of the row,
k2 likewise with the next `words` entries, and the pair is yielded only if
k1 * a + k2 * b is congruent to w modulo p. -/
def Cr50U2fSubProblem (a b w p : Nat) (basis : List Nat)
    (reducedRows : List (List Int)) : List (Nat × Nat) :=
  let words := basis.length
  reducedRows.filterMap fun row =>
    let k1 := ((basis.zip (row.take words)).foldl
      (fun s vw => s + (vw.1 : Int) * vw.2) 0).natAbs
    let k2 := ((basis.zip ((row.drop words).take words)).foldl
      (fun s vw => s + (vw.1 : Int) * vw.2) 0).natAbs
    if ((k1 : Int) * a + (k2 : Int) * b - (w : Int)) % (p : Int) = 0 then
      some (k1, k2)
    else none

/-- The value x1 = (s1 * k1 - z1) * invert(r1, n) % n computed inside the
loop of Cr50U2fGuesses (Python % on a possibly negative left operand with a
positive modulus is Int.emod). -/
def cr50X1 (r1 s1 z1 n k1 : Nat) : Int :=
  (((s1 : Int) * (k1 : Int) - (z1 : Int)) * ((invert r1 n : Nat) : Int)) % (n : Int)

/-- The value x2 = (s2 * k2 - z2) * invert(r2, n) % n computed inside the
loop of Cr50U2fGuesses. -/
def cr50X2 (r2 s2 z2 n k2 : Nat) : Int :=
  (((s2 : Int) * (k2 : Int) - (z2 : Int)) * ((invert r2 n : Nat) : Int)) % (n : Int)

/-- The for-loop of Cr50U2fGuesses over the candidate pairs yielded by
Cr50U2fSubProblem: on a mismatch x1 ≠ x2 the loop raises ArithmeticError
(modelled as Except.error), otherwise int(x1) is added to the guess set. -/
def cr50Fold (r1 s1 z1 r2 s2 z2 n : Nat) :
    List (Nat × Nat) → Finset Nat → Except String (Finset Nat)
  | [], guesses => .ok guesses
  | kk :: rest, guesses =>
    if cr50X1 r1 s1 z1 n kk.1 ≠ cr50X2 r2 s2 z2 n kk.2 then
      .error "Sanity check failed"
    else
      cr50Fold r1 s1 z1 r2 s2 z2 n rest (insert (cr50X1 r1 s1 z1 n kk.1).toNat guesses)

/-- The candidate pairs handed to the loop of Cr50U2fGuesses: the subproblem
is called with a = r2 * s1 % n, b = -r1 * s2 % n, w = (r2 * z1 - r1 * z2) % n,
modulus n and basis [0x1010101 << j for j in range(0, n.bit_length(), 32)]. -/
def cr50Candidates (r1 s1 z1 r2 s2 z2 n : Nat)
    (reducedRows : List (List Int)) : List (Nat × Nat) :=
  Cr50U2fSubProblem (r2 * s1 % n)
    ((-(r1 : Int) * (s2 : Int) % (n : Int)).toNat)
    ((((r2 : Int) * (z1 : Int) - (r1 : Int) * (z2 : Int)) % (n : Int)).toNat)
    n
    ((List.range (bitLength n / 32)).map fun j => 0x1010101 <<< (32 * j))
    reducedRows

/-- Embeds Cr50U2fGuesses from cr50_u2f_weakness.py.  The set of guesses is
modelled as a Finset, the ArithmeticError raised by the sanity check as
Except.error.  As in Cr50U2fSubProblem, the output of the external LLL
reduction is the explicit argument reducedRows. -/
def Cr50U2fGuesses (r1 s1 z1 r2 s2 z2 n : Nat)
    (reducedRows : List (List Int)) : Except String (Finset Nat) :=
  if bitLength n % 32 ≠ 0 then .ok ∅
  else
    cr50Fold r1 s1 z1 r2 s2 z2 n
      (cr50Candidates r1 s1 z1 r2 s2 z2 n reducedRows) (∅ : Finset Nat)

/-! ## 2-adic inverses and square roots (ntheory_util.py) -/

/-- gmpy.lowbits(x, t): the t low bits of x in two's complement, i.e. the
nonnegative representative of x modulo 2^t (GMP fdiv_r_2exp). -/
def lowbits (x : Int) (t : Nat) : Int := x % ((2 : Int) ^ t)

/-- The while loop of Inverse2exp, driven by fuel (the loop at least doubles
t each pass, so fuel = k always suffices; with exhausted fuel the current
approximation is returned, which never happens for the fuel the callers
pass). -/
def inverse2expLoop (n : Int) (k : Nat) : Nat → Int → Nat → Int
  | 0, a, _ => a
  | fuel + 1, a, t =>
    if t < k then
      let t2 := min k (2 * t)
      inverse2expLoop n k fuel (lowbits (a * (2 - a * n)) t2) t2
    else a

/-- Embeds Inverse2exp from ntheory_util.py: the inverse of odd n modulo 2^k
by Newton iteration a := a * (2 - a * n) mod 2^t with doubling precision,
starting from a = n mod 4 at t = 2.  Returns none for even n. -/
def Inverse2exp (n : Int) (k : Nat) : Option Int :=
  if n % 2 = 0 then none
  else some (inverse2expLoop n k k (n % 4) 2)

/-- The while loop of InverseSqrt2exp, driven by fuel (t - 2 at least
doubles each pass, so fuel = k always suffices).  Python computes
a * (3 - a * a * n) // 2 with floor division; the dividend is even whenever
the loop invariant holds, and for an even dividend floor division by 2
agrees with Int division. -/
def inverseSqrt2expLoop (n : Int) (k : Nat) : Nat → Int → Nat → Int
  | 0, a, _ => a
  | fuel + 1, a, t =>
    if t < k then
      let t2 := min k (2 * t - 2)
      inverseSqrt2expLoop n k fuel (lowbits (a * (3 - a * a * n) / 2) t2) t2
    else a

/-- Embeds InverseSqrt2exp from ntheory_util.py: a with a * a * n = 1 mod
2^k, computed by Newton iteration from a = 1 at t = 3; brute force for
k < 3; none when n is not 1 mod 8 (for k at least 3). -/
def InverseSqrt2exp (n : Int) (k : Nat) : Option Int :=
  if k < 3 then
    ((List.range (2 ^ k)).find?
      (fun a => ((a : Int) * (a : Int) * n) % ((2 : Int) ^ k) = 1)).map
      (fun a => (a : Int))
  else if n % 8 ≠ 1 then none
  else some (inverseSqrt2expLoop n k k 1 3)

/-- Embeds Sqrt2exp from ntheory_util.py.  The ValueError raised on even n
is modelled as Except.error (k is a Nat here, so the negative-k part of the
guard cannot fire); for k < 3 the roots are found by brute force; otherwise
r is the inverse of InverseSqrt2exp(n, k) and the four roots are
[r, 2^k - r, lowbits(2^(k-1) - r, k), lowbits(2^(k-1) + r, k)].  In the
source, r = Inverse2exp(s, k) is used directly as an integer; a none there
(impossible, since s is odd) would be a Python TypeError, modelled as
Except.error. -/
def Sqrt2exp (n : Int) (k : Nat) : Except String (List Int) :=
  if n % 2 = 0 then .error "Not implemented for even inputs or negative k"
  else if k < 3 then
    .ok ((List.range (2 ^ k)).filterMap fun x =>
      if ((x : Int) * (x : Int) - n) % ((2 : Int) ^ k) = 0 then some (x : Int)
      else none)
  else
    match InverseSqrt2exp n k with
    | none => .ok []
    | some s =>
      match Inverse2exp s k with
      | none => .error "TypeError"
      | some r =>
        .ok [r, 2 ^ k - r, lowbits (2 ^ (k - 1) - r) k, lowbits (2 ^ (k - 1) + r) k]

/-! ## Batch GCD (rsa_util.py, ntheory_util.py) -/

/-- One level of the product tree: the pairwise products
zip_longest(values[::2], values[1::2], fillvalue=1) of ExtendedProductTree,
an odd leftover multiplied by the fill value 1. -/
def pairProd : List Nat → List Nat
  | [] => []
  | [a] => [a * 1]
  | a :: b :: rest => a * b :: pairProd rest

/-- One level of the t-list of ExtendedProductTree: the quadruplewise
combination [a * d + b * c for a, b, c, d in zip(t[::2], t[1::2],
values[::2], values[1::2])], with the old last t appended when the length
is odd (the leftover pair is carried unchanged). -/
def pairT : List Nat → List Nat → List Nat
  | a :: b :: ts, c :: d :: vs => (a * d + b * c) :: pairT ts vs
  | [a], [_] => [a]
  | _, _ => []

/-- The while loop of ExtendedProductTree: repeat the level step while more
than one value remains, collecting the levels above the leaves.  The level
length strictly decreases, so any fuel at or above the initial length runs
the loop to completion. -/
def eptAux : Nat → List Nat → List Nat → List (List Nat) × List Nat
  | 0, _, t => ([], t)
  | fuel + 1, values, t =>
    if values.length ≤ 1 then ([], t)
    else
      (pairProd values :: (eptAux fuel (pairProd values) (pairT t values)).1,
        (eptAux fuel (pairProd values) (pairT t values)).2)

/-- Embeds ExtendedProductTree from ntheory_util.py: the product tree
(leaves first, root level last) and the value T = t[0] (t[0] of the empty
input would raise in Python; the default 1 is never read under the claims'
non-empty hypothesis). -/
def ExtendedProductTree (values : List Nat) : List (List Nat) × Nat :=
  (values :: (eptAux values.length values (List.replicate values.length 1)).1,
    ((eptAux values.length values (List.replicate values.length 1)).2).headD 1)

/-- One level of BatchGCD's remainder tree: remainders[i] =
prev[i // 2] % level[i], except that a trailing element of even index (the
odd-level leftover, and the root) is carried unreduced. -/
def remStep : List Nat → List Nat → List Nat
  | p :: _, [_] => [p]
  | p :: prest, v0 :: v1 :: rest => (p % v0) :: (p % v1) :: remStep prest rest
  | _, _ => []

/-- The while loop of BatchGCD's remainder computation, over the product
tree levels popped root first. -/
def remTreeAux : List Nat → List (List Nat) → List Nat
  | prev, [] => prev
  | prev, level :: rest => remTreeAux (remStep prev level) rest

/-- The dict comprehension gcds_dict = {v: gcd(v, r) for v, r in
zip(unique_values, remainders)} followed by the lookup gcds_dict[v]; the
keys are the deduplicated values, so first match equals dict lookup. -/
def dictGcd : List Nat → List Nat → Nat → Nat
  | k :: ks, r :: rs, v => if k = v then Nat.gcd k r else dictGcd ks rs v
  | _, _, _ => 0

/-- Embeds BatchGCD from rsa_util.py.  uniq stands for list(set(values)),
whose enumeration order Python does not specify: the claims hypothesize that
uniq has no duplicates and the same members as values.  The optional
other_values_prod is O, with 0 encoding the absent (falsy) case that skips
the multiplication. -/
def BatchGCD (values uniq : List Nat) (O : Nat) : List Nat :=
  let ept := ExtendedProductTree uniq
  let t := if O = 0 then ept.2 else ept.2 * O
  let remainders := remTreeAux [t] ept.1.reverse
  values.map (fun v => dictGcd uniq remainders v)

/-- Multiplication of dual numbers (v1 + t1 eps) * (v2 + t2 eps): the level
step of ExtendedProductTree combines value/t pairs this way. -/
def dmul (p q : Nat × Nat) : Nat × Nat := (p.1 * q.1, p.2 * q.1 + q.2 * p.1)

/-- The dual-number product of a list of (value, t) pairs. -/
def dprod (l : List (Nat × Nat)) : Nat × Nat := l.foldr dmul (1, 0)

/-- The sum of the products of all elements but one:
derivSum [v1, ..., vk] = sum over i of (prod over j of vj, j distinct
from i); the value T of ExtendedProductTree. -/
def derivSum : List Nat → Nat
  | [] => 0
  | a :: l => l.prod + a * derivSum l

/-! ## Fermat factorization (rsa_util.py, rsa_single_checks.py) -/

/-- gmpy.is_square on nonnegative integers. -/
def isSquare (n : Nat) : Bool := Nat.sqrt n * Nat.sqrt n == n

/-- The search loop of FermatFactor.  The invariant b2 = a * a - n is
maintained by the source's increments b2 += a; a += 1; b2 += a; the
max_steps counter of the Python range loop drives the recursion. -/
def fermatLoop (n : Nat) : Nat → Nat → Nat → Option (Nat × Nat)
  | 0, _, _ => none
  | steps + 1, a, b2 =>
    if isSquare b2 then some (a + Nat.sqrt b2, a - Nat.sqrt b2)
    else fermatLoop n steps (a + 1) (b2 + a + (a + 1))

/-- Embeds FermatFactor from rsa_util.py: for even n returns (2, n / 2);
if n is a perfect square returns (sqrt n, sqrt n); otherwise searches a
starting from ceil(sqrt n) for a perfect square a^2 - n, for at most
max_steps steps. -/
def FermatFactor (n : Nat) (maxSteps : Nat) : Option (Nat × Nat) :=
  if n % 2 = 0 then some (2, n / 2)
  else
    let a := Nat.sqrt n
    if a * a = n then some (a, a)
    else fermatLoop n maxSteps (a + 1) ((a + 1) * (a + 1) - n)

/-! ## Guess-based factoring (special_case_factoring.py, ntheory_util.py) -/

/-- abs(x - y) on Python integers, over Nat. -/
def absDiff (x y : Nat) : Nat := (x - y) + (y - x)

/-- The while loop of ContinuedFraction in ntheory_util.py: state (a, b) with
divmod steps, convergent state (r, s, t, u), the produced triples (q, r, t)
collected in order.  b strictly decreases each iteration, so any fuel above
the initial b runs the loop to completion. -/
def cfAux : Nat → Nat → Nat → Nat → Nat → Nat → Nat → List (Nat × Nat × Nat)
  | 0, _, _, _, _, _, _ => []
  | fuel + 1, a, b, r, s, t, u =>
    if b = 0 then []
    else
      (a / b, r * (a / b) + s, t * (a / b) + u) ::
        cfAux fuel b (a % b) (r * (a / b) + s) r (t * (a / b) + u) t

/-- Embeds ContinuedFraction from ntheory_util.py: the coefficients and
partial convergents (q, r, t) of a / b, starting from r, s, t, u = 1, 0, 0, 1. -/
def ContinuedFraction (a b : Nat) : List (Nat × Nat × Nat) :=
  cfAux (b + 1) a b 1 0 0 1

/-- The body of FactorWithGuess's loop for one convergent u / v: Fermat's
method applied to d = 4 * u * v * n with a the ceiling square root of d;
returns [g, n / g] when a * a - d is a perfect square and g = gcd(a + b, n)
is a proper factor, and None otherwise. -/
def fermatStep (n u v : Nat) : Option (List Nat) :=
  let d := 4 * u * v * n
  let a0 := Nat.sqrt d
  let a := if a0 * a0 < d then a0 + 1 else a0
  if isSquare (a * a - d) then
    let b := Nat.sqrt (a * a - d)
    let g := Nat.gcd (a + b) n
    if 1 < g ∧ g < n then some [g, n / g] else none
  else none

/-- The for loop of FactorWithGuess: the first convergent with
abs(u * q0 - v * p0) < bound gets the Fermat step and its result is returned
(the source returns None from inside that branch when the step fails);
later convergents are never examined. -/
def fwgLoop (n p0 q0 bound : Nat) : List (Nat × Nat × Nat) → Option (List Nat)
  | [] => none
  | t :: rest =>
    if absDiff (t.2.1 * q0) (t.2.2 * p0) < bound then fermatStep n t.2.1 t.2.2
    else fwgLoop n p0 q0 bound rest

/-- Embeds FactorWithGuess from special_case_factoring.py with the
floating-point approximation bound of the cube root of n passed as an
argument (the source computes it as int((n >> 3*shift)**(1/3)) << shift,
which floating-point semantics place within 1 of the integer cube root at
the scale of the shift). -/
def FactorWithGuess (n p0 bound : Nat) : Option (List Nat) :=
  fwgLoop n p0 (n / p0) bound (ContinuedFraction p0 (n / p0))

/-! ## Hidden number problem lattice (hidden_number_problem.py) -/

/-- The Bias enum of hidden_number_problem.py: MSB, COMMON_PREFIX (PRE),
COMMON_POSTFIX (POST) and GENERALIZED (GEN). -/
inductive Bias where
  | MSB
  | PRE
  | POST
  | GEN
deriving DecidableEq

/-- The Python statement lat[i][j] = v on a list-of-lists matrix (out-of-range
indices leave the matrix unchanged; the source never goes out of range). -/
def setEntry (m : List (List Nat)) (i j v : Nat) : List (List Nat) :=
  m.set i ((m.getD i []).set j v)

/-- The construction of the base lattice in GetLattice: a lat_size x
lat_size zero matrix, row 0 and row 1 assigned, and the loop writing n * w
on the diagonal of rows 2 .. lat_size - 1 (range(2, lat_size) is
List.range' 2 (len a)). -/
def buildBaseLattice (a2 b2 : List Nat) (w n : Nat) : List (List Nat) :=
  let lat_size := a2.length + 2
  let lat0 : List (List Nat) := List.replicate lat_size (List.replicate lat_size 0)
  let lat1 := lat0.set 0 ([n * w + 1, 0] ++ a2.map (fun v => v * w))
  let lat2 := lat1.set 1 ([0, 1] ++ b2.map (fun v => v * w))
  (List.range' 2 a2.length).foldl (fun m j => setEntry m j j (n * w)) lat2

/-- Embeds GetLattice from hidden_number_problem.py, for an explicitly given
bias parameter w (the claim fixes w, so the branch choosing a default for
w = None is not taken).  The ValueError on mismatched lengths and the
unreachable trailing ValueError are modelled as Except.error; gmpy.invert is
the invert function above.  All matrix entries the source computes are
nonnegative, so the matrix is over Nat. -/
def GetLattice (a b : List Nat) (w n : Nat) (bias : Bias) :
    Except String (List (List Nat)) :=
  if a.length ≠ b.length then .error "a and b must have the same length"
  else
    let abz : List Nat × List Nat × Bias :=
      if bias = Bias.POST then
        let w_inv := invert w n
        (a.map (fun v => v * w_inv % n), b.map (fun v => v * w_inv % n), Bias.PRE)
      else (a, b, bias)
    let a2 := abz.1
    let b2 := abz.2.1
    let bias2 := abz.2.2
    let lat3 := buildBaseLattice a2 b2 w n
    match bias2 with
    | Bias.MSB => .ok lat3
    | Bias.PRE =>
      .ok ((List.range' 2 a2.length).foldl (fun m j => setEntry m 2 j w) lat3)
    | Bias.GEN =>
      .ok ((List.range' 2 a2.length).foldl (fun m j => setEntry m 2 j w)
        (setEntry lat3 0 0 1))
    | Bias.POST => .error "Bias not implemented"

/-- Reads entry (p, q) of a list-of-lists matrix, with default 0. -/
def entry (m : List (List Nat)) (p q : Nat) : Nat := (m.getD p []).getD q 0

/-- A matrix is rectangular of the given size. -/
def rect (m : List (List Nat)) (size : Nat) : Prop :=
  m.length = size ∧ ∀ row ∈ m, row.length = size

/-- Follows the wording of the specification: the entry at (i, j) of the
base (MSB) lattice for arrays a, b: row 0 = (nw+1, 0, w a[0], ..), row 1 =
(0, 1, w b[0], ..), and n w on the diagonal of the remaining rows. -/
def specBaseEntry (a b : List Nat) (w n i j : Nat) : Nat :=
  if i = 0 then
    if j = 0 then n * w + 1 else if j = 1 then 0 else a.getD (j - 2) 0 * w
  else if i = 1 then
    if j = 0 then 0 else if j = 1 then 1 else b.getD (j - 2) 0 * w
  else if i = j then n * w else 0

/-- Follows the wording of the specification: the entry at (i, j) of the
lattice after the bias modification; MSB leaves the base lattice unchanged,
COMMON_PREFIX sets columns 2..k+1 of row 2 to w, COMMON_POSTFIX first maps
the arrays through multiplication by the inverse of w mod n and then applies
the COMMON_PREFIX modification, GENERALIZED sets entry (0,0) to 1 and then
applies the COMMON_PREFIX modification. -/
def specLatticeEntry (a b : List Nat) (w n : Nat) (bias : Bias) (i j : Nat) : Nat :=
  match bias with
  | Bias.MSB => specBaseEntry a b w n i j
  | Bias.PRE =>
    if i = 2 ∧ 2 ≤ j then w else specBaseEntry a b w n i j
  | Bias.POST =>
    let w_inv := invert w n
    let a2 := a.map (fun v => v * w_inv % n)
    let b2 := b.map (fun v => v * w_inv % n)
    if i = 2 ∧ 2 ≤ j then w else specBaseEntry a2 b2 w n i j
  | Bias.GEN =>
    if i = 0 ∧ j = 0 then 1
    else if i = 2 ∧ 2 ≤ j then w else specBaseEntry a b w n i j

/-! ## TestInfo bookkeeping (util.py) -/

/-- A TestResultsEntry protobuf: a named test verdict with a severity. -/
structure TestResultsEntry where
  test_name : String
  severity : Nat
  result : Bool
deriving DecidableEq

/-- A TestInfo protobuf.  The attached_info entries of interest carry factor
sets; Python stores them as strings (the repr of a set of hex strings) that
round-trip through GetAttachedFactors, so the value is modelled as the
encoded Finset itself. -/
structure TestInfo where
  paranoid_lib_version : String
  weak : Bool
  test_results : List TestResultsEntry
  attached_info : List (String × Finset Nat)
deriving DecidableEq

/-- Embeds GetTestResult from util.py: the first stored entry of that name. -/
def GetTestResult (info : TestInfo) (name : String) : Option TestResultsEntry :=
  info.test_results.find? (fun tr => tr.test_name = name)

/-- The in-place update performed by SetTestResult on the first stored entry
with the matching name: the result is OR-ed with the incoming result and the
severity becomes the maximum of old and new. -/
def updateTestResults : List TestResultsEntry → TestResultsEntry → List TestResultsEntry
  | [], _ => []
  | e :: rest, tr =>
    if e.test_name = tr.test_name then
      { e with result := e.result || tr.result,
               severity := max e.severity tr.severity } :: rest
    else
      e :: updateTestResults rest tr

/-- The final step of SetTestResult: update the stored entry of the same
name, or append the new entry. -/
def setTestResultCore (info : TestInfo) (tr : TestResultsEntry) : TestInfo :=
  match GetTestResult info tr.test_name with
  | some _ => { info with test_results := updateTestResults info.test_results tr }
  | none => { info with test_results := info.test_results ++ [tr] }

/-- Embeds SetTestResult from util.py.  The library version string written on
first use is passed as the ver argument (the source reads it from the VERSION
resource file, which is external data). -/
def SetTestResult (ver : String) (info : TestInfo) (tr : TestResultsEntry) : TestInfo :=
  let info1 :=
    if info.paranoid_lib_version = "" then
      { info with paranoid_lib_version := ver }
    else info
  let info2 := if tr.result then { info1 with weak := true } else info1
  setTestResultCore info2 tr

/-- Embeds GetAttachedInfo from util.py. -/
def GetAttachedInfo (info : TestInfo) (name : String) : Option (String × Finset Nat) :=
  info.attached_info.find? (fun ai => ai.1 = name)

/-- The in-place update performed by AttachInfo on the first stored entry
with the matching name. -/
def updateAttachedInfo : List (String × Finset Nat) → String → Finset Nat →
    List (String × Finset Nat)
  | [], _, _ => []
  | e :: rest, name, v =>
    if e.1 = name then (e.1, v) :: rest else e :: updateAttachedInfo rest name v

/-- Embeds AttachInfo from util.py. -/
def AttachInfo (info : TestInfo) (name : String) (value : Finset Nat) : TestInfo :=
  match GetAttachedInfo info name with
  | some _ => { info with attached_info := updateAttachedInfo info.attached_info name value }
  | none => { info with attached_info := info.attached_info ++ [(name, value)] }

/-- Embeds GetAttachedFactors from util.py (parsing of the stored string is
the identity in this model). -/
def GetAttachedFactors (info : TestInfo) (name : String) : Option (Finset Nat) :=
  (GetAttachedInfo info name).map (fun ai => ai.2)

/-- Embeds AttachFactors from util.py.  A previously stored set is unioned
in; Python skips the union when the stored set is empty (falsy), which
changes nothing. -/
def AttachFactors (info : TestInfo) (name : String) (factors : Finset Nat) : TestInfo :=
  let factors2 :=
    match GetAttachedFactors info name with
    | some old => if old ≠ ∅ then factors ∪ old else factors
    | none => factors
  AttachInfo info name factors2

/-- Embeds the body of CheckFermat.Check from rsa_single_checks.py for one
key with modulus n: run FermatFactor with the configured max_steps; on a
factorization, attach both factors under the info name N_FACTORS and record
a true result, otherwise record a false result.  The check name is the
class name; sev is the severity constant SEVERITY_CRITICAL of the generated
protobuf (its numeric value is irrelevant here) and ver the library version
string. -/
def CheckFermatKey (ver : String) (sev maxSteps n : Nat) (info : TestInfo) :
    TestInfo × Bool :=
  match FermatFactor n maxSteps with
  | some pq =>
    let info2 := AttachFactors info "N_FACTORS" {pq.1, pq.2}
    (SetTestResult ver info2 ⟨"CheckFermat", sev, true⟩, true)
  | none => (SetTestResult ver info ⟨"CheckFermat", sev, false⟩, false)

/-- One mutation of a TestInfo: either a SetTestResult call or an
AttachFactors call. -/
inductive TestInfoOp where
  | setResult (ver : String) (tr : TestResultsEntry)
  | attach (name : String) (factors : Finset Nat)

/-- Applies one mutation. -/
def applyOp (info : TestInfo) : TestInfoOp → TestInfo
  | .setResult ver tr => SetTestResult ver info tr
  | .attach name factors => AttachFactors info name factors

/-- Applies a sequence of SetTestResult / AttachFactors calls in order. -/
def applyOps (info : TestInfo) (ops : List TestInfoOp) : TestInfo :=
  ops.foldl applyOp info

/-! ## Check registries and orchestration (paranoid.py, base_check.py) -/

/-- A check object: its check_name (the Python class name, which
BaseCheck.__init__ assigns from self.__class__.__name__) and its Check
method.  Check mutates the artifacts' TestInfo in place and returns the
any-weak flag; it is modelled as a function from the artifact-list state to
the new state paired with that flag. -/
structure NamedCheck (S : Type) where
  name : String
  run : S → S × Bool

/-- Python dict assignment d[k] = v on an insertion-ordered dict: an existing
key keeps its position and gets the new value, a new key is appended. -/
def dictAdd {S : Type} (d : List (NamedCheck S)) (c : NamedCheck S) :
    List (NamedCheck S) :=
  if d.any (fun e => e.name = c.name) then
    d.map (fun e => if e.name = c.name then c else e)
  else d ++ [c]

/-- Python dict.update, iterating dict assignment over the items. -/
def dictUpdate {S : Type} (d : List (NamedCheck S))
    (items : List (NamedCheck S)) : List (NamedCheck S) :=
  items.foldl dictAdd d

/-- The class names of _ACTIVE_RSA_SINGLE_CHECKS, in declared order. -/
def activeRSASingleCheckNames : List String :=
  ["CheckSizes", "CheckExponents", "CheckROCA", "CheckROCAVariant",
   "CheckFermat", "CheckHighAndLowBitsEqual", "CheckOpensslDenylist",
   "CheckContinuedFractions", "CheckBitPatterns", "CheckPermutedBitPatterns",
   "CheckPollardpm1", "CheckLowHammingWeight", "CheckUnseededRand",
   "CheckSmallUpperDifferences", "CheckKeypairDenylist"]

/-- The class names of _ACTIVE_RSA_AGGREGATE_CHECKS, in declared order. -/
def activeRSAAggregateCheckNames : List String := ["CheckGCD", "CheckGCDN1"]

/-- The class names of _ACTIVE_EC_SINGLE_CHECKS, in declared order. -/
def activeECSingleCheckNames : List String :=
  ["CheckValidECKey", "CheckWeakCurve", "CheckWeakECPrivateKey"]

/-- The class names of _ACTIVE_EC_AGGREGATE_CHECKS. -/
def activeECAggregateCheckNames : List String := ["CheckECKeySmallDifference"]

/-- The class names of _ACTIVE_ECDSA_SIG_CHECKS, in declared order. -/
def activeECDSACheckNames : List String :=
  ["CheckLCGNonceGMP", "CheckLCGNonceJavaUtilRandom", "CheckNonceMSB",
   "CheckNonceCommonPrefix", "CheckNonceCommonPostfix",
   "CheckNonceGeneralized", "CheckIssuerKey", "CheckCr50U2f"]

/-- Builds a check dictionary from class names, the way the GetXXXChecks
factories do: each class is instantiated and stored under its check_name.
The Check methods themselves are Python object behaviour; they are modelled
by the assignment f from class names to state transformers, over which all
statements quantify. -/
def buildChecks {S : Type} (f : String → S → S × Bool)
    (names : List String) : List (NamedCheck S) :=
  dictUpdate [] (names.map fun nm => ⟨nm, f nm⟩)

/-- Embeds GetRSAAllChecks: the single-check dict updated with the
aggregate-check dict. -/
def GetRSAAllChecks {S : Type} (f : String → S → S × Bool) : List (NamedCheck S) :=
  dictUpdate (buildChecks f activeRSASingleCheckNames)
    (buildChecks f activeRSAAggregateCheckNames)

/-- Embeds GetECAllChecks. -/
def GetECAllChecks {S : Type} (f : String → S → S × Bool) : List (NamedCheck S) :=
  dictUpdate (buildChecks f activeECSingleCheckNames)
    (buildChecks f activeECAggregateCheckNames)

/-- Embeds GetECDSAAllChecks. -/
def GetECDSAAllChecks {S : Type} (f : String → S → S × Bool) : List (NamedCheck S) :=
  buildChecks f activeECDSACheckNames

/-- Embeds _CheckArtifacts from paranoid.py: iterate the check items in
order, run each check on the current artifact list, OR the weak flags.  The
per-check logging of name and state is modelled by additionally returning
the list of executed check names in execution order. -/
def CheckArtifacts {S : Type} (artifacts : S)
    (checkItems : List (NamedCheck S)) : S × Bool × List String :=
  checkItems.foldl
    (fun acc c =>
      let sr := c.run acc.1
      (sr.1, acc.2.1 || sr.2, acc.2.2 ++ [c.name]))
    (artifacts, false, [])

/-- Embeds CheckAllRSA (log output aside). -/
def CheckAllRSA {S : Type} (f : String → S → S × Bool) (rsaKeys : S) :
    S × Bool × List String :=
  CheckArtifacts rsaKeys (GetRSAAllChecks f)

/-- Embeds CheckAllEC (log output aside). -/
def CheckAllEC {S : Type} (f : String → S → S × Bool) (ecKeys : S) :
    S × Bool × List String :=
  CheckArtifacts ecKeys (GetECAllChecks f)

/-- Embeds CheckAllECDSASigs (log output aside). -/
def CheckAllECDSASigs {S : Type} (f : String → S → S × Bool) (sigs : S) :
    S × Bool × List String :=
  CheckArtifacts sigs (GetECDSAAllChecks f)

/-- Specification-side recursion (from the spec text, for the refinement
statement): the list of per-check results when each check runs exactly once,
in order, on the state left by its predecessors. -/
def seqResults {S : Type} (s : S) : List (NamedCheck S) → List Bool
  | [] => []
  | c :: rest => (c.run s).2 :: seqResults (c.run s).1 rest

/-- Specification-side recursion: the final state after running each check
exactly once in order. -/
def seqFinal {S : Type} (s : S) : List (NamedCheck S) → S
  | [] => s
  | c :: rest => seqFinal (c.run s).1 rest

/-- The monotonicity order on TestInfo: the weak flag never drops back to
false, a stored named result never changes from true to false, a stored
severity never decreases, and a stored factor set only grows. -/
def TestInfoLE (s t : TestInfo) : Prop :=
  (s.weak = true → t.weak = true) ∧
  (∀ name e, GetTestResult s name = some e →
    ∃ e2, GetTestResult t name = some e2 ∧
      (e.result = true → e2.result = true) ∧ e.severity ≤ e2.severity) ∧
  (∀ name fs, GetAttachedFactors s name = some fs →
    ∃ fs2, GetAttachedFactors t name = some fs2 ∧ fs ⊆ fs2)

end Paranoid

namespace Paranoid

/-! ## Theorems for claim C9 -/

/-- C9: combining a single p-value is the identity: for every p with
0 ≤ p ≤ 1, CombinedPValue([p]) = p (whatever the Fisher-branch function is). -/
theorem combinedPValue_singleton (fisher : List ℚ → ℚ) (p : ℚ)
    (h0 : 0 ≤ p) (h1 : p ≤ 1) : CombinedPValue fisher [p] = .ok p := by
  simp [CombinedPValue]

/-- Witness for combinedPValue_singleton at p = 1/2. -/
theorem combinedPValue_singleton_witness :
    (0 : ℚ) ≤ 1/2 ∧ (1/2 : ℚ) ≤ 1 ∧
      CombinedPValue (fun _ => 0) [1/2] = .ok (1/2) :=
  ⟨by norm_num, by norm_num,
    combinedPValue_singleton (fun _ => 0) (1/2) (by norm_num) (by norm_num)⟩

/-! ## Theorems for claim C10 -/

/-- C10: when the bit length of the group order n is not a multiple of 32,
Cr50U2fGuesses returns the empty guess set without raising any exception,
for every possible output of the lattice reduction (no lattice result is
consulted). -/
theorem cr50U2fGuesses_order_size_unsupported (r1 s1 z1 r2 s2 z2 n : Nat)
    (rows : List (List Int)) (h : bitLength n % 32 ≠ 0) :
    Cr50U2fGuesses r1 s1 z1 r2 s2 z2 n rows = .ok ∅ := by
  simp [Cr50U2fGuesses, h]

/-- Witness for cr50U2fGuesses_order_size_unsupported at n = 5 (3 bits). -/
theorem cr50U2fGuesses_order_size_unsupported_witness :
    bitLength 5 % 32 ≠ 0 ∧
      Cr50U2fGuesses 1 2 3 4 5 6 5 [[1, 2, 3]] = .ok ∅ :=
  ⟨by decide,
    cr50U2fGuesses_order_size_unsupported 1 2 3 4 5 6 5 [[1, 2, 3]] (by decide)⟩

/-! ## Support lemmas: extended Euclid and modular inversion -/

/-- Bezout identity for the fuel-driven extended Euclid: the returned
cofactors always combine the inputs into the returned first component. -/
theorem egcd_bezout (fuel : Nat) : ∀ a b : Int,
    (egcd fuel a b).2.1 * a + (egcd fuel a b).2.2 * b = (egcd fuel a b).1 := by
  induction fuel with
  | zero => intro a b; simp [egcd]
  | succ fuel ih =>
    intro a b
    by_cases hb : b = 0
    · simp [egcd, hb]
    · have h := ih b (a % b)
      rcases he : egcd fuel b (a % b) with ⟨g, x, y⟩
      rw [he] at h
      simp only [egcd, hb, if_false, he]
      rw [Int.emod_def] at h
      linear_combination h

/-- With enough fuel the first component of egcd is the gcd of the inputs. -/
theorem egcd_fst_gcd : ∀ (fuel : Nat) (a b : Int), 0 ≤ a → 0 ≤ b →
    b.toNat ≤ fuel → (egcd fuel a b).1 = (Int.gcd a b : Int) := by
  intro fuel
  induction fuel with
  | zero =>
    intro a b ha hb hfuel
    have hb0 : b = 0 := by omega
    subst hb0
    simp [egcd, Int.gcd, Int.natAbs_of_nonneg ha]
  | succ fuel ih =>
    intro a b ha hb hfuel
    by_cases hb0 : b = 0
    · subst hb0
      simp [egcd, Int.gcd, Int.natAbs_of_nonneg ha]
    · have hbpos : 0 < b := lt_of_le_of_ne hb (Ne.symm hb0)
      have hr0 : 0 ≤ a % b := Int.emod_nonneg a hb0
      have hrlt : a % b < b := Int.emod_lt_of_pos a hbpos
      have hrfuel : (a % b).toNat ≤ fuel := by omega
      have h := ih b (a % b) hb hr0 hrfuel
      rcases he : egcd fuel b (a % b) with ⟨g, x, y⟩
      rw [he] at h
      simp only [egcd, hb0, if_false, he]
      simp only [Prod.fst] at h ⊢
      rw [h]
      -- gcd b (a % b) = gcd a b for nonnegative a, b
      obtain ⟨A, rfl⟩ : ∃ A : Nat, a = (A : Int) := ⟨a.toNat, (Int.toNat_of_nonneg ha).symm⟩
      obtain ⟨B, rfl⟩ : ∃ B : Nat, b = (B : Int) := ⟨b.toNat, (Int.toNat_of_nonneg hb).symm⟩
      norm_cast
      rw [Nat.gcd_comm B (A % B), ← Nat.gcd_rec B A, Nat.gcd_comm B A]

/-- Correctness of invert: for 1 < n and a coprime to n, invert a n is a
modular inverse of a. -/
theorem invert_correct (a n : Nat) (hn : 1 < n) (h : Nat.Coprime a n) :
    (invert a n * a) % n = 1 := by
  have hnpos : (0 : Int) < (n : Int) := by exact_mod_cast Nat.zero_lt_of_lt hn
  have hg : (egcd (n + 1) (a : Int) (n : Int)).1 = (Int.gcd a n : Int) :=
    egcd_fst_gcd (n + 1) a n (by positivity) (by positivity) (by simp)
  have hgcd : Int.gcd (a : Int) (n : Int) = 1 := by
    rwa [Int.gcd_natCast_natCast]
  have hbez := egcd_bezout (n + 1) (a : Int) (n : Int)
  rw [hg, hgcd] at hbez
  set x := (egcd (n + 1) (a : Int) (n : Int)).2.1 with hx
  set y := (egcd (n + 1) (a : Int) (n : Int)).2.2 with hy
  -- x * a + y * n = 1, hence (x % n) * a ≡ 1 (mod n)
  have hxmod : ((invert a n : Nat) : Int) = x % n := by
    rw [invert, ← hx, Int.toNat_of_nonneg (Int.emod_nonneg x (by omega))]
  have hn' : (1 : Int) < (n : Int) := by exact_mod_cast hn
  norm_num at hbez
  have : ((invert a n * a : Nat) : Int) % n = ((1 : Nat) : Int) := by
    push_cast
    rw [hxmod, Int.mul_emod, Int.emod_emod_of_dvd x dvd_rfl, ← Int.mul_emod]
    have hxa : x * a % n = (1 - y * n) % n := by
      congr 1
      linarith [hbez]
    rw [hxa, show (1 : Int) - y * n = 1 + (-y) * n by ring, Int.add_mul_emod_self,
      Int.emod_eq_of_lt (by norm_num) hn']
  omega

/-! ## Support lemmas: the Cr50 candidate filter and loop -/

/-- Every candidate pair yielded by Cr50U2fSubProblem passed the filter:
k1 * a + k2 * b is congruent to w modulo p. -/
theorem subProblem_congruence (a b w p : Nat) (basis : List Nat)
    (rows : List (List Int)) (kk : Nat × Nat)
    (h : kk ∈ Cr50U2fSubProblem a b w p basis rows) :
    ((kk.1 : Int) * a + (kk.2 : Int) * b - (w : Int)) % (p : Int) = 0 := by
  simp only [Cr50U2fSubProblem, List.mem_filterMap] at h
  obtain ⟨row, _, hrow⟩ := h
  split at hrow
  · rename_i hcond
    cases hrow
    exact hcond
  · cases hrow

/-- If the loop of Cr50U2fGuesses terminates without raising, the initial
guess set is contained in the returned set. -/
theorem cr50Fold_subset (r1 s1 z1 r2 s2 z2 n : Nat) :
    ∀ (l : List (Nat × Nat)) (g S : Finset Nat),
      cr50Fold r1 s1 z1 r2 s2 z2 n l g = .ok S → g ⊆ S := by
  intro l
  induction l with
  | nil => intro g S h; cases h; exact fun _ hx => hx
  | cons kk rest ih =>
    intro g S h
    rw [cr50Fold] at h
    split at h
    · cases h
    · exact fun x hx => ih _ S h (Finset.mem_insert_of_mem hx)

/-- If the loop of Cr50U2fGuesses returns a guess set, every processed
candidate passed the sanity check and its x1 ended up in the set. -/
theorem cr50Fold_ok (r1 s1 z1 r2 s2 z2 n : Nat) :
    ∀ (l : List (Nat × Nat)) (g S : Finset Nat),
      cr50Fold r1 s1 z1 r2 s2 z2 n l g = .ok S →
      ∀ kk ∈ l, cr50X1 r1 s1 z1 n kk.1 = cr50X2 r2 s2 z2 n kk.2 ∧
        (cr50X1 r1 s1 z1 n kk.1).toNat ∈ S := by
  intro l
  induction l with
  | nil => intro g S _ kk hkk; cases hkk
  | cons kk0 rest ih =>
    intro g S h kk hkk
    rw [cr50Fold] at h
    split at h
    · cases h
    · rename_i heq
      push_neg at heq
      rcases List.mem_cons.mp hkk with hk | hk
      · subst hk
        exact ⟨heq, cr50Fold_subset r1 s1 z1 r2 s2 z2 n rest _ S h
          (Finset.mem_insert_self _ _)⟩
      · exact ih _ S h kk hk

/-- If any candidate in the list fails the sanity check, the loop of
Cr50U2fGuesses raises (the mismatch is never silently dropped). -/
theorem cr50Fold_error (r1 s1 z1 r2 s2 z2 n : Nat) :
    ∀ (l : List (Nat × Nat)) (g : Finset Nat),
      (∃ kk ∈ l, cr50X1 r1 s1 z1 n kk.1 ≠ cr50X2 r2 s2 z2 n kk.2) →
      cr50Fold r1 s1 z1 r2 s2 z2 n l g = .error "Sanity check failed" := by
  intro l
  induction l with
  | nil => intro g h; obtain ⟨kk, hkk, _⟩ := h; cases hkk
  | cons kk0 rest ih =>
    intro g h
    rw [cr50Fold]
    split
    · rfl
    · rename_i heq
      push_neg at heq
      obtain ⟨kk, hkk, hne⟩ := h
      rcases List.mem_cons.mp hkk with hk | hk
      · subst hk; exact absurd heq hne
      · exact ih _ ⟨kk, hk, hne⟩

/-! ## Theorems for claim C5 -/

/-- C5: for inputs whose group order has a bit length divisible by 32
(and invertible r1, r2), every candidate pair (k1, k2) produced by the
Cr50 lattice subproblem satisfies r2 s1 k1 - r1 s2 k2 = r2 z1 - r1 z2
modulo n; the loop computes x1 = (s1 k1 - z1) r1⁻¹ mod n and
x2 = (s2 k2 - z2) r2⁻¹ mod n with genuine modular inverses; whenever some
candidate has x1 ≠ x2 the function raises (Except.error), and when it
returns a guess set, every candidate passed the check x1 = x2 and its
common value x1 is in the returned set. -/
theorem cr50U2fGuesses_sanity (r1 s1 z1 r2 s2 z2 n : Nat)
    (rows : List (List Int)) (h32 : bitLength n % 32 = 0) (hn : 1 < n)
    (hr1 : Nat.Coprime r1 n) (hr2 : Nat.Coprime r2 n) :
    (∀ kk ∈ cr50Candidates r1 s1 z1 r2 s2 z2 n rows,
      ((kk.1 : Int) * ((r2 : Int) * s1) + (kk.2 : Int) * (-(r1 : Int) * s2) -
        ((r2 : Int) * z1 - (r1 : Int) * z2)) % (n : Int) = 0) ∧
    ((invert r1 n * r1) % n = 1 ∧ (invert r2 n * r2) % n = 1) ∧
    ((∃ kk ∈ cr50Candidates r1 s1 z1 r2 s2 z2 n rows,
        cr50X1 r1 s1 z1 n kk.1 ≠ cr50X2 r2 s2 z2 n kk.2) →
      Cr50U2fGuesses r1 s1 z1 r2 s2 z2 n rows = .error "Sanity check failed") ∧
    (∀ S, Cr50U2fGuesses r1 s1 z1 r2 s2 z2 n rows = .ok S →
      ∀ kk ∈ cr50Candidates r1 s1 z1 r2 s2 z2 n rows,
        cr50X1 r1 s1 z1 n kk.1 = cr50X2 r2 s2 z2 n kk.2 ∧
          (cr50X1 r1 s1 z1 n kk.1).toNat ∈ S) := by
  have hnpos : (0 : Int) < (n : Int) := by exact_mod_cast Nat.zero_lt_of_lt hn
  have hunfold : Cr50U2fGuesses r1 s1 z1 r2 s2 z2 n rows =
      cr50Fold r1 s1 z1 r2 s2 z2 n
        (cr50Candidates r1 s1 z1 r2 s2 z2 n rows) ∅ := by
    simp [Cr50U2fGuesses, h32]
  refine ⟨?_, ⟨invert_correct r1 n hn hr1, invert_correct r2 n hn hr2⟩, ?_, ?_⟩
  · intro kk hkk
    have h := subProblem_congruence _ _ _ _ _ _ _ hkk
    -- replace the reduced values a, b, w by the original products modulo n
    have ha : ((r2 * s1 % n : Nat) : Int) % n = ((r2 : Int) * s1) % n := by
      push_cast
      rw [Int.emod_emod_of_dvd _ dvd_rfl]
    have hb : ((((-(r1 : Int) * (s2 : Int)) % (n : Int)).toNat : Int)) % n =
        (-(r1 : Int) * s2) % n := by
      rw [Int.toNat_of_nonneg (Int.emod_nonneg _ (by omega)),
        Int.emod_emod_of_dvd _ dvd_rfl]
    have hw : (((((r2 : Int) * z1 - (r1 : Int) * z2) % (n : Int)).toNat : Int)) % n =
        ((r2 : Int) * z1 - (r1 : Int) * z2) % n := by
      rw [Int.toNat_of_nonneg (Int.emod_nonneg _ (by omega)),
        Int.emod_emod_of_dvd _ dvd_rfl]
    rw [← Int.emod_emod_of_dvd _ (dvd_refl (n : Int))] at h ⊢
    rw [Int.sub_emod, Int.add_emod, Int.mul_emod, ha] at h
    rw [Int.mul_emod ((kk.2 : Int)), hb, hw] at h
    rw [Int.sub_emod, Int.add_emod, Int.mul_emod, Int.mul_emod ((kk.2 : Int))]
    exact h
  · intro hex
    rw [hunfold]
    exact cr50Fold_error r1 s1 z1 r2 s2 z2 n _ _ hex
  · intro S hS kk hkk
    rw [hunfold] at hS
    exact cr50Fold_ok r1 s1 z1 r2 s2 z2 n _ _ S hS kk hkk

/-- Witness for cr50U2fGuesses_sanity at the 32-bit group order
n = 4294967291 with r1 = 3, r2 = 5. -/
theorem cr50U2fGuesses_sanity_witness :
    bitLength 4294967291 % 32 = 0 ∧ 1 < 4294967291 ∧
      Nat.Coprime 3 4294967291 ∧ Nat.Coprime 5 4294967291 ∧
      ((∀ kk ∈ cr50Candidates 3 7 11 5 13 17 4294967291 [],
        ((kk.1 : Int) * ((5 : Int) * 7) + (kk.2 : Int) * (-(3 : Int) * 13) -
          ((5 : Int) * 11 - (3 : Int) * 17)) % (4294967291 : Int) = 0) ∧
      ((invert 3 4294967291 * 3) % 4294967291 = 1 ∧
        (invert 5 4294967291 * 5) % 4294967291 = 1) ∧
      ((∃ kk ∈ cr50Candidates 3 7 11 5 13 17 4294967291 [],
          cr50X1 3 7 11 4294967291 kk.1 ≠ cr50X2 5 13 17 4294967291 kk.2) →
        Cr50U2fGuesses 3 7 11 5 13 17 4294967291 [] = .error "Sanity check failed") ∧
      (∀ S, Cr50U2fGuesses 3 7 11 5 13 17 4294967291 [] = .ok S →
        ∀ kk ∈ cr50Candidates 3 7 11 5 13 17 4294967291 [],
          cr50X1 3 7 11 4294967291 kk.1 = cr50X2 5 13 17 4294967291 kk.2 ∧
            (cr50X1 3 7 11 4294967291 kk.1).toNat ∈ S)) :=
  ⟨by decide, by decide, by decide, by decide,
    cr50U2fGuesses_sanity 3 7 11 5 13 17 4294967291 []
      (by decide) (by decide) (by decide) (by decide)⟩

/-! ## Support lemmas: TestInfo monotonicity -/

theorem testInfoLE_refl (s : TestInfo) : TestInfoLE s s :=
  ⟨fun h => h, fun _ e he => ⟨e, he, fun h => h, le_refl _⟩,
    fun _ fs hfs => ⟨fs, hfs, Finset.Subset.refl fs⟩⟩

theorem testInfoLE_trans {s t u : TestInfo} (h1 : TestInfoLE s t)
    (h2 : TestInfoLE t u) : TestInfoLE s u := by
  obtain ⟨w1, q1, f1⟩ := h1
  obtain ⟨w2, q2, f2⟩ := h2
  refine ⟨fun h => w2 (w1 h), ?_, ?_⟩
  · intro name e he
    obtain ⟨e2, he2, hr, hs⟩ := q1 name e he
    obtain ⟨e3, he3, hr2, hs2⟩ := q2 name e2 he2
    exact ⟨e3, he3, fun h => hr2 (hr h), le_trans hs hs2⟩
  · intro name fs hfs
    obtain ⟨fs2, hfs2, hsub⟩ := f1 name fs hfs
    obtain ⟨fs3, hfs3, hsub2⟩ := f2 name fs2 hfs2
    exact ⟨fs3, hfs3, Finset.Subset.trans hsub hsub2⟩

theorem find?_updateTestResults (tr : TestResultsEntry) (nm : String) :
    ∀ (l : List TestResultsEntry) (e : TestResultsEntry),
    l.find? (fun x => x.test_name = nm) = some e →
    ∃ e2, (updateTestResults l tr).find? (fun x => x.test_name = nm) = some e2 ∧
      (e.result = true → e2.result = true) ∧ e.severity ≤ e2.severity := by
  intro l
  induction l with
  | nil => intro e h; cases h
  | cons a rest ih =>
    intro e h
    rw [updateTestResults]
    by_cases hat : a.test_name = tr.test_name
    · rw [if_pos hat]
      by_cases han : a.test_name = nm
      · rw [List.find?_cons_of_pos _ (by simp [han])] at h
        cases h
        refine ⟨_, List.find?_cons_of_pos _ (by simp [han]), ?_, ?_⟩
        · intro hr; simp [hr]
        · simp
      · rw [List.find?_cons_of_neg _ (by simp [han])] at h
        refine ⟨e, ?_, fun h => h, le_refl _⟩
        rw [List.find?_cons_of_neg _ (by simp [han])]
        exact h
    · rw [if_neg hat]
      by_cases han : a.test_name = nm
      · rw [List.find?_cons_of_pos _ (by simp [han])] at h
        cases h
        exact ⟨a, List.find?_cons_of_pos _ (by simp [han]), fun h => h, le_refl _⟩
      · rw [List.find?_cons_of_neg _ (by simp [han])] at h
        obtain ⟨e2, he2, hr, hs⟩ := ih e h
        exact ⟨e2, by rw [List.find?_cons_of_neg _ (by simp [han])]; exact he2, hr, hs⟩

theorem getTestResult_core (info : TestInfo) (tr : TestResultsEntry)
    (nm : String) (e : TestResultsEntry)
    (h : GetTestResult info nm = some e) :
    ∃ e2, GetTestResult (setTestResultCore info tr) nm = some e2 ∧
      (e.result = true → e2.result = true) ∧ e.severity ≤ e2.severity := by
  rw [setTestResultCore]
  cases hG : GetTestResult info tr.test_name with
  | some x =>
    simp only [GetTestResult] at h ⊢
    exact find?_updateTestResults tr nm info.test_results e h
  | none =>
    simp only [GetTestResult] at h ⊢
    rw [List.find?_append, h]
    exact ⟨e, rfl, fun h => h, le_refl _⟩

theorem setTestResultCore_weak (info : TestInfo) (tr : TestResultsEntry) :
    (setTestResultCore info tr).weak = info.weak := by
  rw [setTestResultCore]
  cases GetTestResult info tr.test_name <;> rfl

theorem setTestResultCore_attached (info : TestInfo) (tr : TestResultsEntry) :
    (setTestResultCore info tr).attached_info = info.attached_info := by
  rw [setTestResultCore]
  cases GetTestResult info tr.test_name <;> rfl

theorem setTestResultCore_le_of (info info2 : TestInfo) (tr : TestResultsEntry)
    (hw : info.weak = true → info2.weak = true)
    (hres : info2.test_results = info.test_results)
    (hatt : info2.attached_info = info.attached_info) :
    TestInfoLE info (setTestResultCore info2 tr) := by
  refine ⟨?_, ?_, ?_⟩
  · intro h
    rw [setTestResultCore_weak]
    exact hw h
  · intro name e he
    apply getTestResult_core
    rw [GetTestResult, hres]
    exact he
  · intro name fs hfs
    refine ⟨fs, ?_, Finset.Subset.refl fs⟩
    simp only [GetAttachedFactors, GetAttachedInfo] at hfs ⊢
    rw [setTestResultCore_attached, hatt]
    exact hfs

theorem setTestResult_le (ver : String) (info : TestInfo) (tr : TestResultsEntry) :
    TestInfoLE info (SetTestResult ver info tr) := by
  rw [SetTestResult]
  refine setTestResultCore_le_of info _ tr ?_ ?_ ?_ <;>
    by_cases h1 : info.paranoid_lib_version = "" <;>
      by_cases h2 : tr.result = true <;>
        simp [h1, h2]

theorem find?_updateAttachedInfo_self (name : String) (v : Finset Nat) :
    ∀ (l : List (String × Finset Nat)) (e : String × Finset Nat),
    l.find? (fun x => x.1 = name) = some e →
    (updateAttachedInfo l name v).find? (fun x => x.1 = name) = some (e.1, v) := by
  intro l
  induction l with
  | nil => intro e h; cases h
  | cons a rest ih =>
    intro e h
    rw [updateAttachedInfo]
    by_cases ha : a.1 = name
    · rw [List.find?_cons_of_pos _ (by simp [ha])] at h
      cases h
      rw [if_pos ha, List.find?_cons_of_pos _ (by simp [ha])]
    · rw [List.find?_cons_of_neg _ (by simp [ha])] at h
      rw [if_neg ha, List.find?_cons_of_neg _ (by simp [ha])]
      exact ih e h

theorem find?_updateAttachedInfo_other (nm name : String) (hne : ¬nm = name)
    (v : Finset Nat) : ∀ l : List (String × Finset Nat),
    (updateAttachedInfo l name v).find? (fun x => x.1 = nm) =
      l.find? (fun x => x.1 = nm) := by
  intro l
  induction l with
  | nil => rfl
  | cons a rest ih =>
    rw [updateAttachedInfo]
    by_cases ha : a.1 = name
    · have hanm : ¬a.1 = nm := fun h => hne (h ▸ ha)
      rw [if_pos ha, List.find?_cons_of_neg _ (by simp [hanm]),
        List.find?_cons_of_neg _ (by simp [hanm])]
    · by_cases hanm : a.1 = nm
      · rw [if_neg ha, List.find?_cons_of_pos _ (by simp [hanm]),
          List.find?_cons_of_pos _ (by simp [hanm])]
      · rw [if_neg ha, List.find?_cons_of_neg _ (by simp [hanm]),
          List.find?_cons_of_neg _ (by simp [hanm]), ih]

theorem attachFactors_le (info : TestInfo) (name : String) (factors : Finset Nat) :
    TestInfoLE info (AttachFactors info name factors) := by
  refine ⟨?_, ?_, ?_⟩
  · intro hw
    rw [AttachFactors, AttachInfo]
    cases GetAttachedInfo info name <;> exact hw
  · intro nm e he
    refine ⟨e, ?_, fun h => h, le_refl _⟩
    rw [AttachFactors, AttachInfo]
    cases GetAttachedInfo info name <;> exact he
  · intro nm fs hfs
    rw [AttachFactors, AttachInfo]
    by_cases hnm : nm = name
    · subst hnm
      simp only [GetAttachedFactors] at hfs
      cases hG : GetAttachedInfo info nm with
      | some a =>
        rw [hG] at hfs
        simp only [Option.map_some'] at hfs
        cases hfs
        simp only [GetAttachedFactors, hG, Option.map_some']
        refine ⟨if a.2 ≠ ∅ then factors ∪ a.2 else factors, ?_, ?_⟩
        · show (Option.map _ (List.find? _ _)) = _
          rw [find?_updateAttachedInfo_self nm _ info.attached_info a hG]
          rfl
        · by_cases hempty : a.2 = (∅ : Finset Nat)
          · rw [hempty]
            simp
          · rw [if_pos hempty]
            exact Finset.subset_union_right
      | none => rw [hG] at hfs; cases hfs
    · cases hG : GetAttachedInfo info name with
      | some a =>
        refine ⟨fs, ?_, Finset.Subset.refl fs⟩
        simp only [GetAttachedFactors, GetAttachedInfo] at hfs ⊢
        rw [find?_updateAttachedInfo_other nm name hnm _ info.attached_info]
        exact hfs
      | none =>
        refine ⟨fs, ?_, Finset.Subset.refl fs⟩
        simp only [GetAttachedFactors, GetAttachedInfo] at hfs ⊢
        rw [List.find?_append]
        cases hF : info.attached_info.find? (fun x => x.1 = nm) with
        | some b => rw [hF] at hfs; rw [Option.or_some]; exact hfs
        | none => rw [hF] at hfs; cases hfs

/-! ## Support lemmas for claim C6: Newton iteration invariants -/

theorem emod_mul_mul (M x y c : Int) :
    ((x % M) * (y % M) * c) % M = (x * y * c) % M := by
  have h1 : (x % M) ≡ x [ZMOD M] := Int.emod_emod_of_dvd _ dvd_rfl
  have h2 : (y % M) ≡ y [ZMOD M] := Int.emod_emod_of_dvd _ dvd_rfl
  exact (h1.mul h2).mul (Int.ModEq.refl c)

theorem one_emod_two_pow (t : Nat) (h : 1 ≤ t) : (1 : Int) % 2 ^ t = 1 :=
  Int.emod_eq_of_lt (by norm_num) (by exact_mod_cast Nat.one_lt_two_pow_iff.mpr (by omega))

theorem newtonInv_step (n a : Int) (t t2 : Nat) (h1 : 1 ≤ t) (h1t2 : 1 ≤ t2)
    (ht2 : t2 ≤ 2 * t) (hinv : (a * n) % 2 ^ t = 1) :
    ((lowbits (a * (2 - a * n)) t2) * n) % 2 ^ t2 = 1 := by
  have hdvd : ((2 : Int) ^ t) ∣ (a * n - 1) := by
    apply Int.dvd_of_emod_eq_zero
    rw [Int.sub_emod, hinv, one_emod_two_pow t h1]
    simp
  obtain ⟨c, hc⟩ := hdvd
  have hkey : (a * (2 - a * n)) * n = 1 - ((2 : Int) ^ t * 2 ^ t) * c ^ 2 := by
    have hc2 : a * n - 1 = 2 ^ t * c := hc
    linear_combination (-(a * n - 1) - 2 ^ t * c) * hc2
  rw [lowbits, Int.mul_emod, Int.emod_emod_of_dvd _ dvd_rfl, ← Int.mul_emod, hkey]
  have hsplit : ((2 : Int) ^ t * 2 ^ t) = 2 ^ t2 * 2 ^ (2 * t - t2) := by
    rw [← pow_add, ← pow_add]
    congr 1
    omega
  rw [hsplit, show (1 : Int) - 2 ^ t2 * 2 ^ (2 * t - t2) * c ^ 2 =
    1 + (-(2 ^ (2 * t - t2) * c ^ 2)) * 2 ^ t2 by ring, Int.add_mul_emod_self,
    one_emod_two_pow t2 h1t2]

theorem newtonInvSqrt_step (n a : Int) (t t2 : Nat) (h3 : 3 ≤ t) (h1t2 : 1 ≤ t2)
    (ht2 : t2 ≤ 2 * t - 2) (hinv : (a * a * n) % 2 ^ t = 1) :
    ((lowbits (a * (3 - a * a * n) / 2) t2) * (lowbits (a * (3 - a * a * n) / 2) t2) * n)
      % 2 ^ t2 = 1 := by
  have hdvd : ((2 : Int) ^ t) ∣ (a * a * n - 1) := by
    apply Int.dvd_of_emod_eq_zero
    rw [Int.sub_emod, hinv, one_emod_two_pow t (by omega)]
    simp
  obtain ⟨c, hc⟩ := hdvd
  have hpow : ((2 : Int) ^ t) = 2 * 2 ^ (t - 1) := by
    rw [← pow_succ']
    congr 1
    omega
  have hc2 : a * a * n - 1 = 2 * 2 ^ (t - 1) * c := by rw [← hpow]; exact hc
  have hfactor : a * (3 - a * a * n) = 2 * (a * (1 - c * 2 ^ (t - 1))) := by
    linear_combination (-a) * hc2
  have hdiv : a * (3 - a * a * n) / 2 = a * (1 - c * 2 ^ (t - 1)) := by
    rw [hfactor, Int.mul_ediv_cancel_left _ (by norm_num)]
  rw [lowbits, emod_mul_mul, hdiv]
  have hkey : (a * (1 - c * 2 ^ (t - 1))) * (a * (1 - c * 2 ^ (t - 1))) * n =
      1 + (2 ^ (t - 1) * 2 ^ (t - 1)) * (c ^ 2 * (2 * c * 2 ^ (t - 1) - 3)) := by
    linear_combination (1 - c * 2 ^ (t - 1)) ^ 2 * hc2
  rw [hkey]
  have hsplit : ((2 : Int) ^ (t - 1) * 2 ^ (t - 1)) = 2 ^ t2 * 2 ^ (2 * t - 2 - t2) := by
    rw [← pow_add, ← pow_add]
    congr 1
    omega
  rw [hsplit, show (1 : Int) + 2 ^ t2 * 2 ^ (2 * t - 2 - t2) *
      (c ^ 2 * (2 * c * 2 ^ (t - 1) - 3)) =
    1 + (2 ^ (2 * t - 2 - t2) * (c ^ 2 * (2 * c * 2 ^ (t - 1) - 3))) * 2 ^ t2 by ring,
    Int.add_mul_emod_self, one_emod_two_pow t2 h1t2]

theorem inverse2expLoop_spec (n : Int) (k : Nat) :
    ∀ (fuel t : Nat) (a : Int), 2 ≤ t → t ≤ k → k ≤ t * 2 ^ fuel →
      (a * n) % 2 ^ t = 1 → 0 ≤ a → a < 2 ^ t →
      ((inverse2expLoop n k fuel a t) * n) % 2 ^ k = 1 ∧
        0 ≤ inverse2expLoop n k fuel a t ∧ inverse2expLoop n k fuel a t < 2 ^ k := by
  intro fuel
  induction fuel with
  | zero =>
    intro t a h2 htk hfuel hinv ha0 halt
    have ht : t = k := by simp at hfuel; omega
    subst ht
    rw [inverse2expLoop]
    exact ⟨hinv, ha0, halt⟩
  | succ fuel ih =>
    intro t a h2 htk hfuel hinv ha0 halt
    rw [inverse2expLoop]
    by_cases hlt : t < k
    · rw [if_pos hlt]
      have h2f : 1 ≤ 2 ^ fuel := Nat.one_le_two_pow
      have hfuel2 : k ≤ min k (2 * t) * 2 ^ fuel := by
        rcases le_total k (2 * t) with h | h
        · rw [min_eq_left h]
          calc k = k * 1 := (mul_one k).symm
            _ ≤ k * 2 ^ fuel := Nat.mul_le_mul_left k h2f
        · rw [min_eq_right h]
          have he : t * 2 ^ (fuel + 1) = 2 * t * 2 ^ fuel := by
            rw [pow_succ]; ring
          rw [he] at hfuel
          exact hfuel
      exact ih (min k (2 * t)) _ (by omega) (min_le_left _ _) hfuel2
        (newtonInv_step n a t _ (by omega) (by omega) (by omega) hinv)
        (Int.emod_nonneg _ (by positivity))
        (Int.emod_lt_of_pos _ (by positivity))
    · rw [if_neg hlt]
      have ht : t = k := by omega
      subst ht
      exact ⟨hinv, ha0, halt⟩

theorem inverseSqrt2expLoop_spec (n : Int) (k : Nat) :
    ∀ (fuel t : Nat) (a : Int), 3 ≤ t → t ≤ k → k - 2 ≤ (t - 2) * 2 ^ fuel →
      (a * a * n) % 2 ^ t = 1 → 0 ≤ a → a < 2 ^ t →
      ((inverseSqrt2expLoop n k fuel a t) * (inverseSqrt2expLoop n k fuel a t) * n)
          % 2 ^ k = 1 ∧
        0 ≤ inverseSqrt2expLoop n k fuel a t ∧ inverseSqrt2expLoop n k fuel a t < 2 ^ k := by
  intro fuel
  induction fuel with
  | zero =>
    intro t a h3 htk hfuel hinv ha0 halt
    have ht : t = k := by simp at hfuel; omega
    subst ht
    rw [inverseSqrt2expLoop]
    exact ⟨hinv, ha0, halt⟩
  | succ fuel ih =>
    intro t a h3 htk hfuel hinv ha0 halt
    rw [inverseSqrt2expLoop]
    by_cases hlt : t < k
    · rw [if_pos hlt]
      have h2f : 1 ≤ 2 ^ fuel := Nat.one_le_two_pow
      have hfuel2 : k - 2 ≤ (min k (2 * t - 2) - 2) * 2 ^ fuel := by
        rcases le_total k (2 * t - 2) with h | h
        · rw [min_eq_left h]
          calc k - 2 = (k - 2) * 1 := (mul_one _).symm
            _ ≤ (k - 2) * 2 ^ fuel := Nat.mul_le_mul_left _ h2f
        · rw [min_eq_right h]
          have he : (t - 2) * 2 ^ (fuel + 1) = (2 * t - 2 - 2) * 2 ^ fuel := by
            rw [pow_succ, show 2 * t - 2 - 2 = 2 * (t - 2) by omega]
            ring
          rw [he] at hfuel
          exact hfuel
      exact ih (min k (2 * t - 2)) _ (by omega) (min_le_left _ _) hfuel2
        (newtonInvSqrt_step n a t _ (by omega) (by omega) (by omega) hinv)
        (Int.emod_nonneg _ (by positivity))
        (Int.emod_lt_of_pos _ (by positivity))
    · rw [if_neg hlt]
      have ht : t = k := by omega
      subst ht
      exact ⟨hinv, ha0, halt⟩

theorem Inverse2exp_spec (n : Int) (k : Nat) (hodd : n % 2 = 1) (hk : 2 ≤ k) :
    ∃ a, Inverse2exp n k = some a ∧ (a * n) % 2 ^ k = 1 ∧ 0 ≤ a ∧ a < 2 ^ k := by
  refine ⟨inverse2expLoop n k k (n % 4) 2, ?_, ?_⟩
  · rw [Inverse2exp, if_neg (by omega)]
  · have hfuel : k ≤ 2 * 2 ^ k := by
      have := Nat.lt_two_pow k
      omega
    apply inverse2expLoop_spec n k k 2 (n % 4) (le_refl 2) hk hfuel ?_ ?_ ?_
    · -- initial invariant: (n % 4) * n = 1 mod 4
      obtain ⟨m, hm⟩ : ∃ m : Int, n = 2 * m + 1 := ⟨n / 2, by omega⟩
      have h4 : ((2 : Int) ^ 2) = 4 := by norm_num
      rw [h4]
      have hme : ((n % 4) * n) % 4 = (n * n) % 4 :=
        (Int.ModEq.mul (Int.emod_emod_of_dvd _ dvd_rfl) (Int.ModEq.refl n))
      rw [hme, show n * n = 1 + (m * m + m) * 4 by linear_combination (n + 2 * m + 1) * hm,
        Int.add_mul_emod_self, Int.emod_eq_of_lt (by norm_num) (by norm_num)]
    · exact Int.emod_nonneg _ (by norm_num)
    · have := Int.emod_lt_of_pos n (show (0 : Int) < 4 by norm_num)
      norm_num
      omega

theorem InverseSqrt2exp_spec (n : Int) (k : Nat) (hn8 : n % 8 = 1) (hk : 3 ≤ k) :
    ∃ s, InverseSqrt2exp n k = some s ∧ (s * s * n) % 2 ^ k = 1 ∧ 0 ≤ s ∧ s < 2 ^ k := by
  refine ⟨inverseSqrt2expLoop n k k 1 3, ?_, ?_⟩
  · rw [InverseSqrt2exp, if_neg (by omega), if_neg (by simp [hn8])]
  · have hfuel : k - 2 ≤ (3 - 2) * 2 ^ k := by
      have := Nat.lt_two_pow k
      omega
    apply inverseSqrt2expLoop_spec n k k 3 1 (le_refl 3) hk hfuel ?_ (by norm_num) (by norm_num)
    rw [show (1 : Int) * 1 * n = n by ring, show ((2 : Int) ^ 3) = 8 by norm_num, hn8]

theorem odd_of_mul_emod_pow_eq_one (k : Nat) (hk : 1 ≤ k) (a b : Int)
    (h : (a * b) % 2 ^ k = 1) : a % 2 = 1 := by
  have h2 : ((2 : Int)) ∣ 2 ^ k := dvd_pow_self 2 (by omega)
  have hab : (a * b) % 2 = 1 := by
    have he := Int.emod_emod_of_dvd (a * b) h2
    rw [h] at he
    rw [← he]
    norm_num
  rcases Int.emod_two_eq a with h0 | h1
  · exfalso
    obtain ⟨c, hc⟩ := Int.dvd_of_emod_eq_zero h0
    rw [hc, show (2 : Int) * c * b = 0 + (c * b) * 2 by ring,
      Int.add_mul_emod_self] at hab
    norm_num at hab
  · exact h1

theorem r_sq_emod (k : Nat) (hk : 1 ≤ k) (n s r : Int)
    (hs : (s * s * n) % 2 ^ k = 1) (hr : (r * s) % 2 ^ k = 1) :
    (r * r - n) % 2 ^ k = 0 := by
  have hds : ((2 : Int) ^ k) ∣ (s * s * n - 1) := by
    apply Int.dvd_of_emod_eq_zero
    rw [Int.sub_emod, hs, one_emod_two_pow k hk]
    simp
  have hdr : ((2 : Int) ^ k) ∣ (r * s - 1) := by
    apply Int.dvd_of_emod_eq_zero
    rw [Int.sub_emod, hr, one_emod_two_pow k hk]
    simp
  obtain ⟨u, hu⟩ := hds
  obtain ⟨v, hv⟩ := hdr
  apply Int.emod_eq_zero_of_dvd
  refine ⟨n * v * (r * s + 1) - r * r * u, ?_⟩
  linear_combination (n * (r * s + 1)) * hv + (-(r * r)) * hu

theorem pow_two_dvd_of_odd_left (m : Nat) (u v : Int) (hodd : u % 2 = 1)
    (h : (2 : Int) ^ m ∣ u * v) : (2 : Int) ^ m ∣ v := by
  have hgcd : Int.gcd 2 u = 1 := by
    rcases (Nat.prime_two.eq_one_or_self_of_dvd (Int.gcd 2 u)
      (by exact_mod_cast Int.gcd_dvd_left (a := (2 : Int)) (b := u))) with h1 | h2
    · exact h1
    · exfalso
      have : (2 : Int) ∣ u := by
        have := Int.gcd_dvd_right (a := (2 : Int)) (b := u)
        rwa [h2] at this
      omega
  have hcop : IsCoprime ((2 : Int) ^ m) u :=
    IsCoprime.pow_left (Int.isCoprime_iff_gcd_eq_one.mpr hgcd)
  exact hcop.dvd_of_dvd_mul_left h

/-! ## Theorem for claim C6 -/

/-- C6: for every odd n with n = 1 mod 8 and every k at least 3, Sqrt2exp
returns exactly the four pairwise-distinct residues r, 2^k - r,
(2^(k-1) - r) mod 2^k and (2^(k-1) + r) mod 2^k; each of them lies in
[0, 2^k), squares to n modulo 2^k, and every square root of n modulo 2^k is
among them. -/
theorem sqrt2exp_four_roots (n : Int) (k : Nat) (hk : 3 ≤ k) (hn8 : n % 8 = 1) :
    ∃ r, Sqrt2exp n k =
        .ok [r, 2 ^ k - r, lowbits (2 ^ (k - 1) - r) k, lowbits (2 ^ (k - 1) + r) k] ∧
      List.Nodup [r, 2 ^ k - r, lowbits (2 ^ (k - 1) - r) k, lowbits (2 ^ (k - 1) + r) k] ∧
      (∀ x ∈ [r, 2 ^ k - r, lowbits (2 ^ (k - 1) - r) k, lowbits (2 ^ (k - 1) + r) k],
        0 ≤ x ∧ x < 2 ^ k ∧ (x * x - n) % 2 ^ k = 0) ∧
      (∀ x : Int, 0 ≤ x → x < 2 ^ k → (x * x - n) % 2 ^ k = 0 →
        x ∈ [r, 2 ^ k - r, lowbits (2 ^ (k - 1) - r) k, lowbits (2 ^ (k - 1) + r) k]) := by
  have hodd : n % 2 = 1 := by
    have he := Int.emod_emod_of_dvd n (show (2 : Int) ∣ 8 by norm_num)
    rw [hn8] at he
    omega
  obtain ⟨s, hsEq, hsInv, hs0, hsLt⟩ := InverseSqrt2exp_spec n k hn8 hk
  have hsOdd : s % 2 = 1 := by
    apply odd_of_mul_emod_pow_eq_one k (by omega) s (s * n)
    rw [← mul_assoc]
    exact hsInv
  obtain ⟨r, hrEq, hrInv, hr0, hrLt⟩ := Inverse2exp_spec s k hsOdd (by omega)
  have hrOdd : r % 2 = 1 := odd_of_mul_emod_pow_eq_one k (by omega) r s hrInv
  have hrSq : (r * r - n) % 2 ^ k = 0 := r_sq_emod k (by omega) n s r hsInv hrInv
  have hstep : Sqrt2exp n k =
      .ok [r, 2 ^ k - r, lowbits (2 ^ (k - 1) - r) k, lowbits (2 ^ (k - 1) + r) k] := by
    rw [Sqrt2exp, if_neg (by omega : ¬ n % 2 = 0), if_neg (by omega : ¬ k < 3), hsEq]
    simp only [hrEq]
  have h8R : (2 : Int) ^ k = 8 * 2 ^ (k - 3) := by
    rw [show (8 : Int) = 2 ^ 3 by norm_num, ← pow_add]
    congr 1
    omega
  have h4R : (2 : Int) ^ (k - 1) = 4 * 2 ^ (k - 3) := by
    rw [show (4 : Int) = 2 ^ 2 by norm_num, ← pow_add]
    congr 1
    omega
  have h2R : (2 : Int) ^ (k - 2) = 2 * 2 ^ (k - 3) := by
    rw [← pow_succ']
    congr 1
    omega
  set R := (2 : Int) ^ (k - 3) with hRdef
  have hR0 : 0 < R := pow_pos (by norm_num) _
  have hrLt8 : r < 8 * R := by rw [← h8R]; exact hrLt
  obtain ⟨A, B, hA, hB, hAB⟩ :
      ∃ A B, lowbits (2 ^ (k - 1) - r) k = A ∧ lowbits (2 ^ (k - 1) + r) k = B ∧
        ((r < 4 * R ∧ A = 4 * R - r ∧ B = 4 * R + r) ∨
         (4 * R < r ∧ A = 12 * R - r ∧ B = r - 4 * R)) := by
    rcases lt_or_gt_of_ne (show r ≠ 4 * R by omega) with hc | hc
    · refine ⟨4 * R - r, 4 * R + r, ?_, ?_, Or.inl ⟨hc, rfl, rfl⟩⟩
      · rw [lowbits, h4R, h8R]
        exact Int.emod_eq_of_lt (by omega) (by omega)
      · rw [lowbits, h4R, h8R]
        exact Int.emod_eq_of_lt (by omega) (by omega)
    · refine ⟨12 * R - r, r - 4 * R, ?_, ?_, Or.inr ⟨hc, rfl, rfl⟩⟩
      · rw [lowbits, h4R, h8R,
          show 4 * R - r = (12 * R - r) + (-1) * (8 * R) by ring,
          Int.add_mul_emod_self]
        exact Int.emod_eq_of_lt (by omega) (by omega)
      · rw [lowbits, h4R, h8R,
          show 4 * R + r = (r - 4 * R) + 1 * (8 * R) by ring,
          Int.add_mul_emod_self]
        exact Int.emod_eq_of_lt (by omega) (by omega)
  have hdvd_n : (2 : Int) ^ k ∣ (r * r - n) := Int.dvd_of_emod_eq_zero hrSq
  have sqOf : ∀ v : Int, ((2 : Int) ^ k ∣ (v * v - r * r)) → (v * v - n) % 2 ^ k = 0 := by
    intro v hv
    apply Int.emod_eq_zero_of_dvd
    have hsum := dvd_add hv hdvd_n
    rwa [show v * v - r * r + (r * r - n) = v * v - n by ring] at hsum
  have hAprop : 0 ≤ A ∧ A < 8 * R := by
    rcases hAB with ⟨hc, hA2, hB2⟩ | ⟨hc, hA2, hB2⟩ <;> omega
  have hBprop : 0 ≤ B ∧ B < 8 * R := by
    rcases hAB with ⟨hc, hA2, hB2⟩ | ⟨hc, hA2, hB2⟩ <;> omega
  refine ⟨r, hstep, ?_, ?_, ?_⟩
  · -- the four residues are pairwise distinct
    rw [hA, hB]
    simp only [List.nodup_cons, List.mem_cons, List.mem_singleton,
      List.not_mem_nil, or_false, not_or, List.nodup_nil, not_false_eq_true,
      and_true]
    rw [h8R]
    rcases hAB with ⟨hc, hA2, hB2⟩ | ⟨hc, hA2, hB2⟩ <;> omega
  · -- each residue is in range and squares to n
    intro x hx
    rw [hA, hB] at hx
    simp only [List.mem_cons, List.not_mem_nil, or_false] at hx
    rcases hx with rfl | rfl | rfl | rfl
    · exact ⟨hr0, hrLt, hrSq⟩
    · refine ⟨by rw [h8R]; omega, by rw [h8R]; omega, sqOf _ ?_⟩
      exact ⟨2 ^ k - 2 * r, by ring⟩
    · refine ⟨hAprop.1, by rw [h8R]; omega, sqOf _ ?_⟩
      rcases hAB with ⟨_, hAv, _⟩ | ⟨_, hAv, _⟩
      · rw [hAv, h8R]
        exact ⟨2 * R - r, by ring⟩
      · rw [hAv, h8R]
        exact ⟨18 * R - 3 * r, by ring⟩
    · refine ⟨hBprop.1, by rw [h8R]; omega, sqOf _ ?_⟩
      rcases hAB with ⟨_, _, hBv⟩ | ⟨_, _, hBv⟩
      · rw [hBv, h8R]
        exact ⟨2 * R + r, by ring⟩
      · rw [hBv, h8R]
        exact ⟨2 * R - r, by ring⟩
  · -- completeness: every root is one of the four
    intro x hx0 hxlt hxsq
    rw [hA, hB]
    simp only [List.mem_cons, List.not_mem_nil, or_false]
    have hxlt8 : x < 8 * R := by rw [← h8R]; exact hxlt
    have hxr2 : (2 : Int) ^ k ∣ (x * x - r * r) := by
      have h1 := Int.dvd_of_emod_eq_zero hxsq
      have hd := dvd_sub h1 hdvd_n
      rwa [show x * x - n - (r * r - n) = x * x - r * r by ring] at hd
    have hxOdd : x % 2 = 1 := by
      apply odd_of_mul_emod_pow_eq_one 1 (le_refl 1) x x
      rw [pow_one]
      have h2k : (2 : Int) ∣ 2 ^ k := dvd_pow_self 2 (by omega)
      obtain ⟨c, hc⟩ := dvd_trans h2k (Int.dvd_of_emod_eq_zero hxsq)
      rw [show x * x = n + c * 2 by linear_combination hc, Int.add_mul_emod_self, hodd]
    obtain ⟨u, hu⟩ : ∃ u, x - r = 2 * u := ⟨(x - r) / 2, by omega⟩
    have hfac : x * x - r * r = 4 * (u * (u + r)) := by
      linear_combination (x + r + 2 * u) * hu
    have hend : (2 : Int) ^ (k - 2) ∣ u * (u + r) := by
      rw [h2R]
      apply (mul_dvd_mul_iff_left (by norm_num : (4 : Int) ≠ 0)).mp
      rw [← hfac, show (4 : Int) * (2 * R) = 8 * R by ring, ← h8R]
      exact hxr2
    rcases Int.emod_two_eq u with hu0 | hu1
    · -- u even: 2^(k-2) divides u, so x = r mod 2^(k-1)
      have hur_odd : (u + r) % 2 = 1 := by omega
      have hdu : (2 : Int) ^ (k - 2) ∣ u :=
        pow_two_dvd_of_odd_left (k - 2) (u + r) u hur_odd (by rwa [mul_comm] at hend)
      obtain ⟨d, hd⟩ := hdu
      have hxd : x - r = 4 * R * d := by
        rw [hu, hd, h2R]
        ring
      have hdlt : -2 < d ∧ d < 2 := by
        constructor
        · have : 4 * R * (-2) < 4 * R * d := by omega
          exact (mul_lt_mul_left (by omega : (0 : Int) < 4 * R)).mp this
        · have : 4 * R * d < 4 * R * 2 := by omega
          exact (mul_lt_mul_left (by omega : (0 : Int) < 4 * R)).mp this
      obtain ⟨hd1, hd2⟩ := hdlt
      interval_cases d <;>
        rcases hAB with ⟨hc, hA2, hB2⟩ | ⟨hc, hA2, hB2⟩ <;> omega
    · -- u odd: 2^(k-2) divides u + r, so x = -r mod 2^(k-1)
      have hdu : (2 : Int) ^ (k - 2) ∣ (u + r) :=
        pow_two_dvd_of_odd_left (k - 2) u (u + r) hu1 hend
      obtain ⟨d, hd⟩ := hdu
      have hxd : x + r = 4 * R * d := by
        have hxr : x + r = 2 * (u + r) := by omega
        rw [hxr, hd, h2R]
        ring
      have hdlt : 0 < d ∧ d < 4 := by
        constructor
        · have : 4 * R * 0 < 4 * R * d := by omega
          exact (mul_lt_mul_left (by omega : (0 : Int) < 4 * R)).mp this
        · have : 4 * R * d < 4 * R * 4 := by omega
          exact (mul_lt_mul_left (by omega : (0 : Int) < 4 * R)).mp this
      obtain ⟨hd1, hd2⟩ := hdlt
      interval_cases d <;>
        rcases hAB with ⟨hc, hA2, hB2⟩ | ⟨hc, hA2, hB2⟩ <;> omega

/-- Witness for sqrt2exp_four_roots at n = 17, k = 5. -/
theorem sqrt2exp_four_roots_witness :
    3 ≤ 5 ∧ (17 : Int) % 8 = 1 ∧
      (∃ r, Sqrt2exp 17 5 =
          .ok [r, 2 ^ 5 - r, lowbits (2 ^ (5 - 1) - r) 5, lowbits (2 ^ (5 - 1) + r) 5] ∧
        List.Nodup [r, 2 ^ 5 - r, lowbits (2 ^ (5 - 1) - r) 5, lowbits (2 ^ (5 - 1) + r) 5] ∧
        (∀ x ∈ [r, 2 ^ 5 - r, lowbits (2 ^ (5 - 1) - r) 5, lowbits (2 ^ (5 - 1) + r) 5],
          0 ≤ x ∧ x < 2 ^ 5 ∧ (x * x - 17) % 2 ^ 5 = 0) ∧
        (∀ x : Int, 0 ≤ x → x < 2 ^ 5 → (x * x - 17) % 2 ^ 5 = 0 →
          x ∈ [r, 2 ^ 5 - r, lowbits (2 ^ (5 - 1) - r) 5, lowbits (2 ^ (5 - 1) + r) 5])) :=
  ⟨by norm_num, by norm_num, sqrt2exp_four_roots 17 5 (by norm_num) (by norm_num)⟩

/-! ## Support lemmas for claim C4: matrix entry bookkeeping -/

theorem getD_set_zero (l : List Nat) (j v q : Nat) :
    (l.set j v).getD q 0 = if q = j ∧ j < l.length then v else l.getD q 0 := by
  by_cases hqj : q = j
  · subst hqj
    by_cases hlen : q < l.length
    · simp [List.getD_eq_getElem?_getD, List.getElem?_set_self', hlen]
    · rw [List.set_eq_of_length_le (by omega)]
      simp [hlen]
  · simp [List.getD_eq_getElem?_getD, List.getElem?_set_ne (fun h => hqj h.symm), hqj]

theorem entry_set_row (m : List (List Nat)) (i : Nat) (row : List Nat) (p q : Nat) :
    entry (m.set i row) p q =
      if p = i ∧ i < m.length then row.getD q 0 else entry m p q := by
  by_cases hpi : p = i
  · subst hpi
    by_cases hlen : p < m.length
    · simp [entry, List.getD_eq_getElem?_getD, List.getElem?_set_self', hlen]
    · rw [List.set_eq_of_length_le (by omega)]
      simp [hlen]
  · simp [entry, List.getD_eq_getElem?_getD,
      List.getElem?_set_ne (fun h => hpi h.symm), hpi]

theorem entry_setEntry (m : List (List Nat)) (i j v p q : Nat) :
    entry (setEntry m i j v) p q =
      if p = i ∧ i < m.length ∧ q = j ∧ j < (m.getD i []).length then v
      else entry m p q := by
  rw [setEntry, entry_set_row]
  by_cases h1 : p = i ∧ i < m.length
  · obtain ⟨hp, hi⟩ := h1
    subst hp
    rw [if_pos ⟨rfl, hi⟩, getD_set_zero]
    by_cases h2 : q = j ∧ j < (m.getD p []).length
    · rw [if_pos h2, if_pos ⟨rfl, hi, h2.1, h2.2⟩]
    · rw [if_neg h2, if_neg (by tauto)]
      rfl
  · rw [if_neg h1, if_neg (by tauto)]

theorem getD_in_range_mem (m : List (List Nat)) (i : Nat) (hi : i < m.length) :
    m.getD i [] ∈ m := by
  have hg : m.getD i [] = m[i] := by
    rw [List.getD_eq_getElem?_getD, List.getElem?_eq_getElem hi]
    rfl
  rw [hg]
  exact List.getElem_mem hi

theorem rect_setEntry (m : List (List Nat)) (size i j v : Nat)
    (h : rect m size) : rect (setEntry m i j v) size := by
  obtain ⟨hlen, hrow⟩ := h
  refine ⟨by rw [setEntry, List.length_set]; exact hlen, ?_⟩
  intro row hmem
  by_cases hi : i < m.length
  · rcases List.mem_or_eq_of_mem_set hmem with hold | hnew
    · exact hrow row hold
    · subst hnew
      rw [List.length_set]
      exact hrow _ (getD_in_range_mem m i hi)
  · rw [setEntry, List.set_eq_of_length_le (by omega)] at hmem
    exact hrow row hmem

theorem rect_getD_length (m : List (List Nat)) (size i : Nat) (h : rect m size)
    (hi : i < size) : (m.getD i []).length = size :=
  h.2 _ (getD_in_range_mem m i (by rw [h.1]; exact hi))

theorem entry_setEntry_rect (m : List (List Nat)) (size i j v p q : Nat)
    (h : rect m size) (hi : i < size) (hj : j < size) :
    entry (setEntry m i j v) p q = if p = i ∧ q = j then v else entry m p q := by
  rw [entry_setEntry]
  by_cases hc : p = i ∧ q = j
  · rw [if_pos ⟨hc.1, by rw [h.1]; exact hi, hc.2,
      by rw [rect_getD_length m size i h hi]; exact hj⟩, if_pos hc]
  · rw [if_neg (by tauto), if_neg hc]

theorem diag_fold_spec (v size : Nat) : ∀ (js : List Nat) (m : List (List Nat)),
    rect m size → (∀ j ∈ js, j < size) →
    rect (js.foldl (fun acc j => setEntry acc j j v) m) size ∧
    ∀ p q, entry (js.foldl (fun acc j => setEntry acc j j v) m) p q =
      if p ∈ js ∧ q = p then v else entry m p q := by
  intro js
  induction js with
  | nil =>
    intro m hm _
    exact ⟨hm, by intro p q; simp⟩
  | cons j js ih =>
    intro m hm hjs
    have hj : j < size := hjs j (List.mem_cons_self _ _)
    have hm1 : rect (setEntry m j j v) size := rect_setEntry _ _ _ _ _ hm
    obtain ⟨hrect, hent⟩ :=
      ih (setEntry m j j v) hm1 (fun x hx => hjs x (List.mem_cons_of_mem _ hx))
    rw [List.foldl_cons]
    refine ⟨hrect, ?_⟩
    intro p q
    rw [hent p q, entry_setEntry_rect m size j j v p q hm hj hj]
    by_cases h1 : p ∈ js ∧ q = p
    · rw [if_pos h1, if_pos ⟨List.mem_cons_of_mem _ h1.1, h1.2⟩]
    · rw [if_neg h1]
      by_cases h2 : p = j ∧ q = j
      · obtain ⟨hp, hq⟩ := h2
        subst hp
        subst hq
        rw [if_pos ⟨rfl, rfl⟩, if_pos ⟨List.mem_cons_self _ _, rfl⟩]
      · rw [if_neg h2, if_neg ?_]
        intro hcontra
        obtain ⟨hmem, hqp⟩ := hcontra
        rcases List.mem_cons.mp hmem with hpj | hpjs
        · exact h2 ⟨hpj, by omega⟩
        · exact h1 ⟨hpjs, hqp⟩

theorem row2_fold_spec (v size : Nat) :
    ∀ (js : List Nat) (m : List (List Nat)),
    rect m size → (∀ j ∈ js, 2 ≤ j ∧ j < size) →
    rect (js.foldl (fun acc j => setEntry acc 2 j v) m) size ∧
    ∀ p q, entry (js.foldl (fun acc j => setEntry acc 2 j v) m) p q =
      if p = 2 ∧ q ∈ js then v else entry m p q := by
  intro js
  induction js with
  | nil =>
    intro m hm _
    exact ⟨hm, by intro p q; simp⟩
  | cons j js ih =>
    intro m hm hjs
    have hj : 2 ≤ j ∧ j < size := hjs j (List.mem_cons_self _ _)
    have hm1 : rect (setEntry m 2 j v) size := rect_setEntry _ _ _ _ _ hm
    obtain ⟨hrect, hent⟩ :=
      ih (setEntry m 2 j v) hm1 (fun x hx => hjs x (List.mem_cons_of_mem _ hx))
    rw [List.foldl_cons]
    refine ⟨hrect, ?_⟩
    intro p q
    rw [hent p q, entry_setEntry_rect m size 2 j v p q hm (by omega) hj.2]
    by_cases h1 : p = 2 ∧ q ∈ js
    · rw [if_pos h1, if_pos ⟨h1.1, List.mem_cons_of_mem _ h1.2⟩]
    · rw [if_neg h1]
      by_cases h2 : p = 2 ∧ q = j
      · obtain ⟨hp, hq⟩ := h2
        subst hp
        subst hq
        rw [if_pos ⟨rfl, rfl⟩, if_pos ⟨rfl, List.mem_cons_self _ _⟩]
      · rw [if_neg h2, if_neg ?_]
        intro hcontra
        obtain ⟨hp2, hmem⟩ := hcontra
        rcases List.mem_cons.mp hmem with hqj | hqjs
        · exact h2 ⟨hp2, hqj⟩
        · exact h1 ⟨hp2, hqjs⟩

theorem rect_set_row (m : List (List Nat)) (size i : Nat) (row : List Nat)
    (h : rect m size) (hrowlen : row.length = size) : rect (m.set i row) size := by
  obtain ⟨hlen, hrow⟩ := h
  refine ⟨by rw [List.length_set]; exact hlen, ?_⟩
  intro r hmem
  rcases List.mem_or_eq_of_mem_set hmem with hold | hnew
  · exact hrow r hold
  · rw [hnew]
    exact hrowlen

theorem entry_replicate_zero (size p q : Nat) :
    entry (List.replicate size (List.replicate size 0)) p q = 0 := by
  have houter : (List.replicate size (List.replicate size 0)).getD p [] =
      if p < size then List.replicate size 0 else [] := by
    rw [List.getD_eq_getElem?_getD, List.getElem?_replicate]
    split <;> rfl
  rw [entry, houter]
  split
  · rw [List.getD_eq_getElem?_getD, List.getElem?_replicate]
    split <;> rfl
  · rfl

theorem getD_latticeRow (x y : Nat) (l : List Nat) (w q : Nat) (hq : q < l.length + 2) :
    ([x, y] ++ l.map (fun v => v * w)).getD q 0 =
      if q = 0 then x else if q = 1 then y else l.getD (q - 2) 0 * w := by
  match q, hq with
  | 0, _ => rfl
  | 1, _ => rfl
  | (r + 2), hq =>
    have hr : r < l.length := by omega
    rw [if_neg (by omega), if_neg (by omega)]
    rw [List.getD_eq_getElem?_getD,
      List.getElem?_append_right (by simp : ([x, y] : List Nat).length ≤ r + 2),
      show ([x, y] : List Nat).length = 2 from rfl,
      show r + 2 - 2 = r from by omega,
      List.getElem?_map, List.getElem?_eq_getElem hr, Option.map_some']
    rw [List.getD_eq_getElem?_getD, List.getElem?_eq_getElem hr]
    rfl

theorem buildBaseLattice_spec (a2 b2 : List Nat) (w n : Nat)
    (hlen : a2.length = b2.length) :
    rect (buildBaseLattice a2 b2 w n) (a2.length + 2) ∧
    ∀ p q, p < a2.length + 2 → q < a2.length + 2 →
      entry (buildBaseLattice a2 b2 w n) p q = specBaseEntry a2 b2 w n p q := by
  have hrect0 : rect (List.replicate (a2.length + 2) (List.replicate (a2.length + 2) 0))
      (a2.length + 2) := by
    refine ⟨List.length_replicate _ _, ?_⟩
    intro row hrow
    rw [List.eq_of_mem_replicate hrow]
    exact List.length_replicate _ _
  have hrect1 := rect_set_row _ (a2.length + 2) 0
    ([n * w + 1, 0] ++ a2.map (fun v => v * w)) hrect0 (by simp)
  have hrect2 := rect_set_row _ (a2.length + 2) 1
    ([0, 1] ++ b2.map (fun v => v * w)) hrect1 (by simp [hlen])
  obtain ⟨hrect3, hent3⟩ := diag_fold_spec (n * w) (a2.length + 2)
    (List.range' 2 a2.length) _ hrect2
    (fun j hj => by rw [List.mem_range'_1] at hj; omega)
  constructor
  · simp only [buildBaseLattice]
    exact hrect3
  · intro p q hp hq
    simp only [buildBaseLattice]
    rw [hent3 p q, entry_set_row, entry_set_row]
    have hlen1 : (List.replicate (a2.length + 2)
        (List.replicate (a2.length + 2) 0)).length = a2.length + 2 :=
      List.length_replicate _ _
    have hlen2 : ((List.replicate (a2.length + 2)
        (List.replicate (a2.length + 2) 0)).set 0
        ([n * w + 1, 0] ++ a2.map (fun v => v * w))).length = a2.length + 2 := by
      rw [List.length_set]
      exact hlen1
    rcases Nat.lt_or_ge p 2 with hp2 | hp2
    · have hpnotin : ¬(p ∈ List.range' 2 a2.length ∧ q = p) := by
        intro hcon
        obtain ⟨hmem, _⟩ := hcon
        rw [List.mem_range'_1] at hmem
        omega
      rw [if_neg hpnotin]
      match p, hp2 with
      | 0, _ =>
        rw [if_neg (show ¬((0 : Nat) = 1 ∧ 1 < _) from by omega),
          if_pos ⟨rfl, by rw [hlen1]; omega⟩,
          getD_latticeRow _ _ _ _ _ (by omega), specBaseEntry]
        rw [if_pos rfl]
      | 1, _ =>
        rw [if_pos ⟨rfl, by rw [hlen2]; omega⟩,
          getD_latticeRow _ _ _ _ _ (by omega), specBaseEntry]
        rw [if_neg (show (1 : Nat) ≠ 0 from by omega), if_pos rfl]
    · rw [if_neg (show ¬(p = 1 ∧ 1 < _) from by omega),
        if_neg (show ¬(p = 0 ∧ 0 < _) from by omega), entry_replicate_zero,
        specBaseEntry]
      rw [if_neg (show ¬p = 0 from by omega), if_neg (show ¬p = 1 from by omega)]
      by_cases hpq : q = p
      · rw [if_pos ⟨by rw [List.mem_range'_1]; omega, hpq⟩, if_pos (by omega)]
      · rw [if_neg (by tauto), if_neg (by omega)]

/-! ## Theorem for claim C4 -/

/-- C4: for equal-length arrays a, b and an explicitly given bias parameter
w invertible modulo n, GetLattice returns the (k+2)x(k+2) matrix with row 0
= (nw+1, 0, w a), row 1 = (0, 1, w b) and n w on the diagonal of rows
2..k+1, modified by the bias: MSB leaves it unchanged, COMMON_PREFIX writes
w into columns 2..k+1 of row 2, COMMON_POSTFIX first multiplies both arrays
by the inverse of w modulo n and then applies the COMMON_PREFIX
modification, and GENERALIZED sets entry (0,0) to 1 and then applies the
COMMON_PREFIX modification. -/
theorem getLattice_matches_spec (a b : List Nat) (w n : Nat) (bias : Bias)
    (hlen : a.length = b.length) (hn : 1 < n) (hcop : Nat.Coprime w n) :
    (invert w n * w) % n = 1 ∧
    ∃ lat, GetLattice a b w n bias = .ok lat ∧ lat.length = a.length + 2 ∧
      (∀ row ∈ lat, row.length = a.length + 2) ∧
      ∀ i j, i < a.length + 2 → j < a.length + 2 →
        entry lat i j = specLatticeEntry a b w n bias i j := by
  refine ⟨invert_correct w n hn hcop, ?_⟩
  cases bias with
  | MSB =>
    obtain ⟨hrect, hent⟩ := buildBaseLattice_spec a b w n hlen
    refine ⟨buildBaseLattice a b w n, ?_, hrect.1, hrect.2, ?_⟩
    · simp [GetLattice, hlen]
    · intro i j hi hj
      rw [hent i j hi hj]
      rfl
  | PRE =>
    obtain ⟨hrect, hent⟩ := buildBaseLattice_spec a b w n hlen
    obtain ⟨hrect2, hent2⟩ := row2_fold_spec w (a.length + 2)
      (List.range' 2 a.length) (buildBaseLattice a b w n) hrect
      (fun j hj => by rw [List.mem_range'_1] at hj; omega)
    refine ⟨(List.range' 2 a.length).foldl (fun m j => setEntry m 2 j w)
      (buildBaseLattice a b w n), ?_, hrect2.1, hrect2.2, ?_⟩
    · simp [GetLattice, hlen]
    · intro i j hi hj
      rw [hent2 i j]
      simp only [specLatticeEntry]
      by_cases hc : i = 2 ∧ 2 ≤ j
      · rw [if_pos ⟨hc.1, by rw [List.mem_range'_1]; omega⟩, if_pos hc]
      · rw [if_neg ?_, if_neg hc, hent i j hi hj]
        intro hcon
        obtain ⟨h2, hmem⟩ := hcon
        rw [List.mem_range'_1] at hmem
        exact hc ⟨h2, by omega⟩
  | POST =>
    have hlen2 : (a.map (fun v => v * invert w n % n)).length =
        (b.map (fun v => v * invert w n % n)).length := by
      simp [hlen]
    obtain ⟨hrect, hent⟩ := buildBaseLattice_spec (a.map (fun v => v * invert w n % n))
      (b.map (fun v => v * invert w n % n)) w n hlen2
    obtain ⟨hrect2, hent2⟩ := row2_fold_spec w
      ((a.map (fun v => v * invert w n % n)).length + 2)
      (List.range' 2 (a.map (fun v => v * invert w n % n)).length)
      (buildBaseLattice (a.map (fun v => v * invert w n % n))
        (b.map (fun v => v * invert w n % n)) w n) hrect
      (fun j hj => by rw [List.mem_range'_1] at hj; omega)
    have hmaplen : (a.map (fun v => v * invert w n % n)).length = a.length :=
      List.length_map a _
    rw [hmaplen] at hrect2 hent2
    refine ⟨(List.range' 2 a.length).foldl (fun m j => setEntry m 2 j w)
      (buildBaseLattice (a.map (fun v => v * invert w n % n))
        (b.map (fun v => v * invert w n % n)) w n), ?_, hrect2.1, hrect2.2, ?_⟩
    · simp [GetLattice, hlen]
    · intro i j hi hj
      rw [hent2 i j]
      simp only [specLatticeEntry]
      by_cases hc : i = 2 ∧ 2 ≤ j
      · rw [if_pos ⟨hc.1, by rw [List.mem_range'_1]; omega⟩, if_pos hc]
      · rw [if_neg ?_, if_neg hc, hent i j (by rw [hmaplen]; exact hi)
          (by rw [hmaplen]; exact hj)]
        intro hcon
        obtain ⟨h2, hmem⟩ := hcon
        rw [List.mem_range'_1] at hmem
        exact hc ⟨h2, by omega⟩
  | GEN =>
    obtain ⟨hrect, hent⟩ := buildBaseLattice_spec a b w n hlen
    have hrectS : rect (setEntry (buildBaseLattice a b w n) 0 0 1) (a.length + 2) :=
      rect_setEntry _ _ _ _ _ hrect
    obtain ⟨hrect2, hent2⟩ := row2_fold_spec w (a.length + 2)
      (List.range' 2 a.length) (setEntry (buildBaseLattice a b w n) 0 0 1) hrectS
      (fun j hj => by rw [List.mem_range'_1] at hj; omega)
    refine ⟨(List.range' 2 a.length).foldl (fun m j => setEntry m 2 j w)
      (setEntry (buildBaseLattice a b w n) 0 0 1), ?_, hrect2.1, hrect2.2, ?_⟩
    · simp [GetLattice, hlen]
    · intro i j hi hj
      rw [hent2 i j,
        entry_setEntry_rect (buildBaseLattice a b w n) (a.length + 2) 0 0 1 i j
          hrect (by omega) (by omega)]
      simp only [specLatticeEntry]
      by_cases hc0 : i = 0 ∧ j = 0
      · rw [if_neg (by omega), if_pos hc0, if_pos hc0]
      · by_cases hc : i = 2 ∧ 2 ≤ j
        · rw [if_pos ⟨hc.1, by rw [List.mem_range'_1]; omega⟩, if_neg hc0, if_pos hc]
        · rw [if_neg ?_, if_neg hc0, if_neg hc0, if_neg hc, hent i j hi hj]
          intro hcon
          obtain ⟨h2, hmem⟩ := hcon
          rw [List.mem_range'_1] at hmem
          exact hc ⟨h2, by omega⟩

/-- Witness for getLattice_matches_spec at a = [3, 5], b = [7, 9], w = 4,
n = 11, bias COMMON_POSTFIX. -/
theorem getLattice_matches_spec_witness :
    ([3, 5] : List Nat).length = ([7, 9] : List Nat).length ∧ 1 < 11 ∧
      Nat.Coprime 4 11 ∧
      ((invert 4 11 * 4) % 11 = 1 ∧
      ∃ lat, GetLattice [3, 5] [7, 9] 4 11 Bias.POST = .ok lat ∧
        lat.length = ([3, 5] : List Nat).length + 2 ∧
        (∀ row ∈ lat, row.length = ([3, 5] : List Nat).length + 2) ∧
        ∀ i j, i < ([3, 5] : List Nat).length + 2 →
          j < ([3, 5] : List Nat).length + 2 →
          entry lat i j = specLatticeEntry [3, 5] [7, 9] 4 11 Bias.POST i j) :=
  ⟨rfl, by norm_num, by decide,
    getLattice_matches_spec [3, 5] [7, 9] 4 11 Bias.POST rfl (by norm_num) (by decide)⟩

theorem checkArtifacts_go {S : Type} :
    ∀ (checks : List (NamedCheck S)) (s : S) (b : Bool) (tr : List String),
    checks.foldl
      (fun acc c =>
        let sr := c.run acc.1
        (sr.1, acc.2.1 || sr.2, acc.2.2 ++ [c.name]))
      (s, b, tr) =
    (seqFinal s checks, b || (seqResults s checks).any id,
      tr ++ checks.map (fun c => c.name)) := by
  intro checks
  induction checks with
  | nil => intro s b tr; simp [seqFinal, seqResults]
  | cons c rest ih =>
    intro s b tr
    rw [List.foldl_cons]
    show rest.foldl _ ((c.run s).1, b || (c.run s).2, tr ++ [c.name]) = _
    rw [ih]
    simp [seqFinal, seqResults, Bool.or_assoc]

/-- C8: each of CheckAllRSA, CheckAllEC and CheckAllECDSASigs runs every
check of its registry exactly once on the artifact list, in the declared
registry order (for RSA the fifteen single checks CheckSizes through
CheckKeypairDenylist, then CheckGCD and CheckGCDN1), and the returned weak
flag is true iff at least one check returned true.  The registries are
quantified over the assignment f of Check bodies to class names. -/
theorem checkAll_runs_registry_in_order {S : Type} (f : String → S → S × Bool)
    (artifacts : S) :
    ((GetRSAAllChecks (S := S) f).map (fun c => c.name) =
        activeRSASingleCheckNames ++ activeRSAAggregateCheckNames) ∧
    ((GetECAllChecks (S := S) f).map (fun c => c.name) =
        activeECSingleCheckNames ++ activeECAggregateCheckNames) ∧
    ((GetECDSAAllChecks (S := S) f).map (fun c => c.name) =
        activeECDSACheckNames) ∧
    (∀ checks : List (NamedCheck S),
      CheckArtifacts artifacts checks =
        (seqFinal artifacts checks, (seqResults artifacts checks).any id,
          checks.map (fun c => c.name))) ∧
    (∀ checks : List (NamedCheck S),
      ((CheckArtifacts artifacts checks).2.1 = true ↔
        ∃ b ∈ seqResults artifacts checks, b = true)) := by
  refine ⟨?_, ?_, ?_, ?_, ?_⟩
  · simp [GetRSAAllChecks, buildChecks, dictUpdate, dictAdd,
      activeRSASingleCheckNames, activeRSAAggregateCheckNames]
  · simp [GetECAllChecks, buildChecks, dictUpdate, dictAdd,
      activeECSingleCheckNames, activeECAggregateCheckNames]
  · simp [GetECDSAAllChecks, buildChecks, dictUpdate, dictAdd,
      activeECDSACheckNames]
  · intro checks
    rw [CheckArtifacts, checkArtifacts_go]
    simp
  · intro checks
    rw [CheckArtifacts, checkArtifacts_go]
    simp [List.any_eq_true]

/-! ## Theorems for claim C7 -/

/-- C7: across every sequence of SetTestResult and AttachFactors calls on a
TestInfo, the weak flag never goes back from true to false, a stored named
result never changes from true to false, a stored severity never decreases,
and a stored factor set only grows. -/
theorem testInfo_monotonic : ∀ (ops : List TestInfoOp) (s : TestInfo),
    TestInfoLE s (applyOps s ops) := by
  intro ops
  induction ops with
  | nil => intro s; exact testInfoLE_refl s
  | cons op rest ih =>
    intro s
    have hstep : TestInfoLE s (applyOp s op) := by
      cases op with
      | setResult ver tr => exact setTestResult_le ver s tr
      | attach name factors => exact attachFactors_le s name factors
    exact testInfoLE_trans hstep (ih (applyOp s op))

/-! ## Theorems for claim C2 -/

theorem natSqrt_eq_of (s n : Nat) (h1 : s * s ≤ n) (h2 : n < (s + 1) * (s + 1)) :
    Nat.sqrt n = s :=
  Nat.le_antisymm (Nat.lt_succ_iff.mp (Nat.sqrt_lt.mpr h2)) (Nat.le_sqrt.mpr h1)

theorem fermatLoop_sound (n astar u : Nat)
    (hastar : astar * astar = n + u * u) (hbound : 2 * astar ≤ n)
    (hn2 : 2 ≤ n) :
    ∀ (steps a b2 : Nat), n ≤ a * a → b2 = a * a - n → a ≤ astar →
    ∀ p q, fermatLoop n steps a b2 = some (p, q) →
      p * q = n ∧ 2 ≤ q ∧ q ≤ p := by
  intro steps
  induction steps with
  | zero =>
    intro a b2 _ _ _ p q h
    rw [fermatLoop] at h
    cases h
  | succ k ih =>
    intro a b2 hna hb2 hale p q h
    rw [fermatLoop] at h
    by_cases hsq : isSquare b2
    · rw [if_pos hsq] at h
      simp only [Option.some.injEq, Prod.mk.injEq] at h
      obtain ⟨hp, hq⟩ := h
      subst hp
      subst hq
      simp only [isSquare, beq_iff_eq] at hsq
      set b := Nat.sqrt b2 with hbdef
      have key : a * a = n + b * b := by omega
      have hba : b ≤ a := by
        by_contra hcon
        push_neg at hcon
        have := Nat.mul_self_lt_mul_self hcon
        omega
      obtain ⟨t, ht⟩ : ∃ t, a = b + t := ⟨a - b, by omega⟩
      subst ht
      have hsub : b + t - b = t := by omega
      rw [hsub]
      have expand : (b + t) * (b + t) = b * b + (b + t + b) * t := by ring
      have hfact : (b + t + b) * t = n := by omega
      rcases t with _ | _ | t3
      · simp at hfact
        omega
      · simp only [Nat.mul_one] at hfact
        omega
      · refine ⟨hfact, by omega, by omega⟩
    · rw [if_neg hsq] at h
      have hx : (a + 1) * (a + 1) = a * a + 2 * a + 1 := by ring
      have hne : a ≠ astar := by
        intro heq
        subst heq
        have hb2u : b2 = u * u := by omega
        rw [hb2u] at hsq
        simp [isSquare, Nat.sqrt_eq] at hsq
      exact ih (a + 1) (b2 + a + (a + 1)) (by omega) (by omega) (by omega) p q h

theorem fermat_params_exist (n : Nat) (hodd : n % 2 = 1) (hn : 2 ≤ n)
    (hcomp : ¬ n.Prime) :
    ∃ astar u, astar * astar = n + u * u ∧ 2 * astar ≤ n := by
  obtain ⟨m, hmdvd, hm2, hmlt⟩ := Nat.exists_dvd_of_not_prime2 hn hcomp
  obtain ⟨k, hk⟩ := hmdvd
  have hmodd : m % 2 = 1 := by
    by_contra hcon
    obtain ⟨j, hj⟩ : ∃ j, m = 2 * j := ⟨m / 2, by omega⟩
    rw [hj] at hk
    have hr : 2 * j * k = 2 * (j * k) := by ring
    omega
  have hk0 : k ≠ 0 := by
    intro h0
    rw [h0, Nat.mul_zero] at hk
    omega
  have hk1 : k ≠ 1 := by
    intro h1
    rw [h1, Nat.mul_one] at hk
    omega
  have hkodd : k % 2 = 1 := by
    by_contra hcon
    obtain ⟨j, hj⟩ : ∃ j, k = 2 * j := ⟨k / 2, by omega⟩
    rw [hj] at hk
    have hr : m * (2 * j) = 2 * (m * j) := by ring
    omega
  rcases le_total m k with hmk | hkm
  · obtain ⟨x, hx⟩ : ∃ x, m = 2 * x + 1 := ⟨m / 2, by omega⟩
    obtain ⟨u, hu⟩ : ∃ u, k = 2 * x + 1 + 2 * u := ⟨(k - m) / 2, by omega⟩
    refine ⟨2 * x + u + 1, u, ?_, ?_⟩
    · rw [hk, hx, hu]; ring
    · rw [hx, hu] at hk
      have hx1 : 1 ≤ x := by omega
      have hxx : 1 * 1 ≤ x * x := Nat.mul_le_mul hx1 hx1
      have hr : (2 * x + 1) * (2 * x + 1 + 2 * u) =
          4 * (x * x) + 4 * (x * u) + 4 * x + 2 * u + 1 := by ring
      omega
  · obtain ⟨x, hx⟩ : ∃ x, k = 2 * x + 1 := ⟨k / 2, by omega⟩
    obtain ⟨u, hu⟩ : ∃ u, m = 2 * x + 1 + 2 * u := ⟨(m - k) / 2, by omega⟩
    refine ⟨2 * x + u + 1, u, ?_, ?_⟩
    · rw [hk, hx, hu]; ring
    · rw [hx, hu] at hk
      have hx1 : 1 ≤ x := by omega
      have hxx : 1 * 1 ≤ x * x := Nat.mul_le_mul hx1 hx1
      have hr : (2 * x + 1 + 2 * u) * (2 * x + 1) =
          4 * (x * x) + 4 * (x * u) + 4 * x + 2 * u + 1 := by ring
      omega

theorem fermatFactor_sound (n maxSteps p q : Nat) (hodd : n % 2 = 1)
    (hn : 2 ≤ n) (hcomp : ¬ n.Prime)
    (h : FermatFactor n maxSteps = some (p, q)) :
    (2 ≤ p ∧ n % p = 0 ∧ p < n) ∧ (2 ≤ q ∧ n % q = 0 ∧ q < n) := by
  have hn4 : 4 ≤ n := by
    have h3 : n ≠ 3 := fun hc => hcomp (hc ▸ Nat.prime_three)
    omega
  simp only [FermatFactor] at h
  rw [if_neg (by omega : ¬ n % 2 = 0)] at h
  by_cases hsqn : Nat.sqrt n * Nat.sqrt n = n
  · rw [if_pos hsqn] at h
    simp only [Option.some.injEq, Prod.mk.injEq] at h
    obtain ⟨hp, hq⟩ := h
    subst hp
    subst hq
    set s := Nat.sqrt n with hs
    have h2s : 2 ≤ s := by
      by_contra hcon
      push_neg at hcon
      interval_cases s <;> omega
    have hdvd : n % s = 0 := by
      rw [← hsqn]
      exact Nat.mul_mod_right s s
    have h2sle : 2 * s ≤ s * s := Nat.mul_le_mul_right s h2s
    exact ⟨⟨h2s, hdvd, by omega⟩, ⟨h2s, hdvd, by omega⟩⟩
  · rw [if_neg hsqn] at h
    obtain ⟨astar, u, hastar, hbound⟩ := fermat_params_exist n hodd hn hcomp
    have hu1 : 1 ≤ u := by
      rcases Nat.eq_zero_or_pos u with hu0 | hu0
      · exfalso
        apply hsqn
        subst hu0
        have hnsq : n = astar * astar := by omega
        rw [hnsq, Nat.sqrt_eq]
      · omega
    have huu : 1 * 1 ≤ u * u := Nat.mul_le_mul hu1 hu1
    have hstart : Nat.sqrt n + 1 ≤ astar := by
      have : Nat.sqrt n < astar := Nat.sqrt_lt.mpr (by omega)
      omega
    have hna : n ≤ (Nat.sqrt n + 1) * (Nat.sqrt n + 1) :=
      le_of_lt (Nat.lt_succ_sqrt n)
    obtain ⟨hpq, hq2, hqp⟩ :=
      fermatLoop_sound n astar u hastar hbound hn maxSteps (Nat.sqrt n + 1)
        ((Nat.sqrt n + 1) * (Nat.sqrt n + 1) - n) hna rfl hstart p q h
    have hp2 : 2 ≤ p := le_trans hq2 hqp
    have hmodp : n % p = 0 := by
      rw [← hpq]
      exact Nat.mul_mod_right p q
    have hmodq : n % q = 0 := by
      rw [← hpq]
      exact Nat.mul_mod_left p q
    have h2p : 2 * p ≤ q * p := Nat.mul_le_mul_right p hq2
    have hqpn : q * p = n := by rw [Nat.mul_comm]; exact hpq
    exact ⟨⟨hp2, hmodp, by omega⟩, ⟨hq2, hmodq, by omega⟩⟩

theorem setTestResult_attached (ver : String) (info : TestInfo) (tr : TestResultsEntry) :
    (SetTestResult ver info tr).attached_info = info.attached_info := by
  rw [SetTestResult]
  rw [setTestResultCore_attached]
  by_cases h1 : info.paranoid_lib_version = "" <;> by_cases h2 : tr.result <;>
    simp [h1, h2]

theorem getAttachedFactors_setTestResult (ver : String) (info : TestInfo)
    (tr : TestResultsEntry) (name : String) :
    GetAttachedFactors (SetTestResult ver info tr) name =
      GetAttachedFactors info name := by
  simp only [GetAttachedFactors, GetAttachedInfo]
  rw [setTestResult_attached]

theorem mem_attachFactors_self (info : TestInfo) (name : String)
    (factors : Finset Nat) (fs : Finset Nat) (f : Nat)
    (hget : GetAttachedFactors (AttachFactors info name factors) name = some fs)
    (hmem : f ∈ fs) :
    f ∈ factors ∨ ∃ old, GetAttachedFactors info name = some old ∧ f ∈ old := by
  cases hG : GetAttachedInfo info name with
  | some a =>
    have hGF : GetAttachedFactors info name = some a.2 := by
      simp only [GetAttachedFactors, hG, Option.map_some']
    have hck : AttachFactors info name factors =
        AttachInfo info name (if a.2 ≠ ∅ then factors ∪ a.2 else factors) := by
      rw [AttachFactors, hGF]
    rw [hck, AttachInfo, hG] at hget
    simp only [GetAttachedFactors, GetAttachedInfo] at hget
    rw [find?_updateAttachedInfo_self name _ info.attached_info a hG] at hget
    simp only [Option.map_some', Option.some.injEq] at hget
    subst hget
    by_cases hempty : a.2 = (∅ : Finset Nat)
    · rw [if_neg (by simp [hempty])] at hmem
      exact Or.inl hmem
    · rw [if_pos hempty] at hmem
      rcases Finset.mem_union.mp hmem with hf | hf
      · exact Or.inl hf
      · exact Or.inr ⟨a.2, hGF, hf⟩
  | none =>
    have hGF : GetAttachedFactors info name = none := by
      simp only [GetAttachedFactors, hG, Option.map_none']
    have hck : AttachFactors info name factors = AttachInfo info name factors := by
      rw [AttachFactors, hGF]
    have hfnone : info.attached_info.find? (fun ai => ai.1 = name) = none := hG
    rw [hck, AttachInfo, hG] at hget
    simp only [GetAttachedFactors, GetAttachedInfo] at hget
    rw [List.find?_append, hfnone] at hget
    simp only [Option.none_or] at hget
    rw [List.find?_cons_of_pos _ (by simp)] at hget
    simp only [Option.map_some', Option.some.injEq] at hget
    subst hget
    exact Or.inl hmem

theorem fermatFactor_three : FermatFactor 3 100000 = some (3, 1) := by
  have hs3 : Nat.sqrt 3 = 1 := natSqrt_eq_of 1 3 (by decide) (by decide)
  have hs1 : Nat.sqrt 1 = 1 := natSqrt_eq_of 1 1 (by decide) (by decide)
  rw [FermatFactor]
  rw [if_neg (by decide : ¬ (3 : Nat) % 2 = 0)]
  rw [hs3]
  show (if 1 * 1 = 3 then some (1, 1)
    else fermatLoop 3 100000 (1 + 1) ((1 + 1) * (1 + 1) - 3)) = some (3, 1)
  rw [if_neg (by decide)]
  show fermatLoop 3 (99999 + 1) 2 1 = some (3, 1)
  rw [fermatLoop]
  have hsq1 : isSquare 1 = true := by rw [isSquare, hs1]; decide
  simp [hsq1, hs1]

/-- C2, counterexample: the modulus n = 3 is odd and at least 2, so it
satisfies the claimed hypotheses, yet FermatFactor finds the trivial
representation 3 = 2 * 2 - 1 and returns the pair (3, 1); CheckFermat
attaches both factors under N_FACTORS, and the stored factor 1 violates
2 <= f while the stored factor 3 violates f < n.  The claimed invariant
therefore needs compositeness of n, not just the section-3 invariant. -/
theorem checkFermat_factor_invariant_cex :
    (3 : Nat) % 2 = 1 ∧ 2 ≤ 3 ∧
    GetAttachedFactors (CheckFermatKey "0.9" 5 100000 3 ⟨"", false, [], []⟩).1
      "N_FACTORS" = some {3, 1} ∧
    (1 : Nat) ∈ ({3, 1} : Finset Nat) ∧ ¬(2 ≤ (1 : Nat)) ∧
    (3 : Nat) ∈ ({3, 1} : Finset Nat) ∧ ¬((3 : Nat) < 3) := by
  have hck : (CheckFermatKey "0.9" 5 100000 3 ⟨"", false, [], []⟩).1 =
      SetTestResult "0.9" (AttachFactors ⟨"", false, [], []⟩ "N_FACTORS" {3, 1})
        ⟨"CheckFermat", 5, true⟩ := by
    rw [CheckFermatKey, fermatFactor_three]
  refine ⟨rfl, by decide, ?_, by decide, by decide, by decide, by decide⟩
  rw [hck]
  decide

/-- C2, amended: for every odd composite modulus n at least 2, and every
starting TestInfo whose stored N_FACTORS evidence (if any) already satisfies
the invariant, every factor f stored in the N_FACTORS factor-set evidence
after CheckFermat's per-key body runs satisfies 2 <= f, n mod f = 0 and
f < n.  (The compositeness hypothesis is what the original claim lacks:
for a prime n the search returns the trivial pair (n, 1).) -/
theorem checkFermat_factor_invariant (ver : String) (sev maxSteps n : Nat)
    (info : TestInfo) (hodd : n % 2 = 1) (hn : 2 ≤ n) (hcomp : ¬ n.Prime)
    (hold : ∀ fs f, GetAttachedFactors info "N_FACTORS" = some fs → f ∈ fs →
      2 ≤ f ∧ n % f = 0 ∧ f < n) :
    ∀ fs f,
      GetAttachedFactors (CheckFermatKey ver sev maxSteps n info).1 "N_FACTORS" = some fs →
      f ∈ fs → 2 ≤ f ∧ n % f = 0 ∧ f < n := by
  intro fs f hget hmem
  cases hFF : FermatFactor n maxSteps with
  | none =>
    have hck : (CheckFermatKey ver sev maxSteps n info).1 =
        SetTestResult ver info ⟨"CheckFermat", sev, false⟩ := by
      rw [CheckFermatKey, hFF]
    rw [hck, getAttachedFactors_setTestResult] at hget
    exact hold fs f hget hmem
  | some pq =>
    have hck : (CheckFermatKey ver sev maxSteps n info).1 =
        SetTestResult ver (AttachFactors info "N_FACTORS" {pq.1, pq.2})
          ⟨"CheckFermat", sev, true⟩ := by
      rw [CheckFermatKey, hFF]
    rw [hck, getAttachedFactors_setTestResult] at hget
    rcases mem_attachFactors_self info "N_FACTORS" {pq.1, pq.2} fs f hget hmem with
      hf | ⟨old, holdget, hfold⟩
    · obtain ⟨hp, hq⟩ := fermatFactor_sound n maxSteps pq.1 pq.2 hodd hn hcomp hFF
      rcases Finset.mem_insert.mp hf with hf1 | hf2
      · rw [hf1]; exact hp
      · rw [Finset.mem_singleton.mp hf2]; exact hq
    · exact hold old f holdget hfold

theorem fermatFactor_21 : FermatFactor 21 100000 = some (7, 3) := by
  have hs21 : Nat.sqrt 21 = 4 := natSqrt_eq_of 4 21 (by decide) (by decide)
  have hs4 : Nat.sqrt 4 = 2 := natSqrt_eq_of 2 4 (by decide) (by decide)
  rw [FermatFactor]
  rw [if_neg (by decide : ¬ (21 : Nat) % 2 = 0)]
  rw [hs21]
  show (if 4 * 4 = 21 then some (4, 4)
    else fermatLoop 21 100000 (4 + 1) ((4 + 1) * (4 + 1) - 21)) = some (7, 3)
  rw [if_neg (by decide)]
  show fermatLoop 21 (99999 + 1) 5 4 = some (7, 3)
  rw [fermatLoop]
  have hsq4 : isSquare 4 = true := by rw [isSquare, hs4]; decide
  simp [hsq4, hs4]

theorem checkFermat_factor_invariant_witness :
    2 ≤ 7 ∧ 21 % 7 = 0 ∧ 7 < 21 := by
  have hck : (CheckFermatKey "0.9" 5 100000 21 ⟨"", false, [], []⟩).1 =
      SetTestResult "0.9" (AttachFactors ⟨"", false, [], []⟩ "N_FACTORS" {7, 3})
        ⟨"CheckFermat", 5, true⟩ := by
    rw [CheckFermatKey, fermatFactor_21]
  have hget : GetAttachedFactors
      (CheckFermatKey "0.9" 5 100000 21 ⟨"", false, [], []⟩).1 "N_FACTORS" =
      some {7, 3} := by
    rw [hck]
    decide
  have hprime : ¬ Nat.Prime 21 := by decide
  exact checkFermat_factor_invariant "0.9" 5 100000 21 ⟨"", false, [], []⟩
    (by decide) (by decide) hprime
    (fun _ _ h => Option.noConfusion h) {7, 3} 7 hget (by decide)

/-! ## Theorems for claim C3 -/

theorem fwgLoop_eq_find (n p0 q0 bound : Nat) : ∀ L : List (Nat × Nat × Nat),
    fwgLoop n p0 q0 bound L =
      match L.find? (fun t => absDiff (t.2.1 * q0) (t.2.2 * p0) < bound) with
      | some t => fermatStep n t.2.1 t.2.2
      | none => none := by
  intro L
  induction L with
  | nil => rfl
  | cons t rest ih =>
    rw [fwgLoop]
    by_cases hq : absDiff (t.2.1 * q0) (t.2.2 * p0) < bound
    · rw [if_pos hq, List.find?_cons_of_pos _ (by simp [hq])]
    · rw [if_neg hq, List.find?_cons_of_neg _ (by simp [hq]), ih]

theorem fermatInner_sound (n A D : Nat) (l : List Nat)
    (h : (if isSquare (A * A - D) then
            (if 1 < Nat.gcd (A + Nat.sqrt (A * A - D)) n ∧
                Nat.gcd (A + Nat.sqrt (A * A - D)) n < n
             then some [Nat.gcd (A + Nat.sqrt (A * A - D)) n,
                n / Nat.gcd (A + Nat.sqrt (A * A - D)) n]
             else none)
          else none) = some l) :
    ∃ g, l = [g, n / g] ∧ 1 < g ∧ g < n ∧ n % g = 0 := by
  split at h
  · split at h
    · rename_i hcond
      simp only [Option.some.injEq] at h
      exact ⟨_, h.symm, hcond.1, hcond.2,
        Nat.mod_eq_zero_of_dvd (Nat.gcd_dvd_right (A + Nat.sqrt (A * A - D)) n)⟩
    · cases h
  · cases h

theorem fermatStep_sound (n u v : Nat) : ∀ l, fermatStep n u v = some l →
    ∃ g, l = [g, n / g] ∧ 1 < g ∧ g < n ∧ n % g = 0 := by
  intro l h
  rw [fermatStep] at h
  dsimp only at h
  split at h
  · exact fermatInner_sound n (Nat.sqrt (4 * u * v * n) + 1) (4 * u * v * n) l h
  · exact fermatInner_sound n (Nat.sqrt (4 * u * v * n)) (4 * u * v * n) l h

theorem fermatStep_eval_none (n u v D a0 : Nat)
    (hd : 4 * u * v * n = D)
    (ha0 : Nat.sqrt D = a0)
    (hlt : a0 * a0 < D)
    (hb : Nat.sqrt ((a0 + 1) * (a0 + 1) - D) * Nat.sqrt ((a0 + 1) * (a0 + 1) - D) ≠
      (a0 + 1) * (a0 + 1) - D) :
    fermatStep n u v = none := by
  simp only [fermatStep]
  rw [hd, ha0, if_pos hlt]
  rw [if_neg (by simp only [isSquare, beq_iff_eq]; exact hb)]

theorem fermatStep_eval_some (n u v D a0 b g : Nat)
    (hd : 4 * u * v * n = D)
    (ha0 : Nat.sqrt D = a0)
    (hlt : a0 * a0 < D)
    (hsqb : Nat.sqrt ((a0 + 1) * (a0 + 1) - D) = b)
    (hb : b * b = (a0 + 1) * (a0 + 1) - D)
    (hg : Nat.gcd (a0 + 1 + b) n = g)
    (h1 : 1 < g) (h2 : g < n) :
    fermatStep n u v = some [g, n / g] := by
  simp only [fermatStep]
  rw [hd, ha0, if_pos hlt]
  rw [if_pos (by simp only [isSquare, beq_iff_eq, hsqb]; exact hb)]
  rw [hsqb, hg, if_pos ⟨h1, h2⟩]

theorem fermatStep_129_4_1 : fermatStep 129 4 1 = none := by
  have hs2064 : Nat.sqrt 2064 = 45 := natSqrt_eq_of 45 2064 (by decide) (by decide)
  have hs52 : Nat.sqrt 52 = 7 := natSqrt_eq_of 7 52 (by decide) (by decide)
  refine fermatStep_eval_none 129 4 1 2064 45 (by decide) hs2064 (by decide) ?_
  rw [show (45 + 1) * (45 + 1) - 2064 = 52 from by decide, hs52]
  decide

theorem fermatStep_129_9_2 : fermatStep 129 9 2 = some [3, 43] := by
  have hs9288 : Nat.sqrt 9288 = 96 := natSqrt_eq_of 96 9288 (by decide) (by decide)
  have hs121 : Nat.sqrt 121 = 11 := natSqrt_eq_of 11 121 (by decide) (by decide)
  have h := fermatStep_eval_some 129 9 2 9288 96 11 3 (by decide) hs9288 (by decide)
    (by rw [show (96 + 1) * (96 + 1) - 9288 = 121 from by decide]; exact hs121)
    (by decide) (by decide) (by decide) (by decide)
  exact h

theorem continuedFraction_22_5 :
    ContinuedFraction 22 5 = [(4, 4, 1), (2, 9, 2), (2, 22, 5)] := by decide

theorem fwg_129_22_none (bound : Nat) (hb : 2 < bound) :
    FactorWithGuess 129 22 bound = none := by
  rw [FactorWithGuess]
  show fwgLoop 129 22 5 bound (ContinuedFraction 22 5) = none
  rw [continuedFraction_22_5, fwgLoop]
  rw [if_pos (show absDiff ((4, 4, 1).2.1 * 5) ((4, 4, 1).2.2 * 22) < bound from hb)]
  exact fermatStep_129_4_1

/-- C3, counterexample: for n = 129 = 3 * 43 and guess p_0 = 22 (so
q_0 = 129 / 22 = 5 and the code's bound int(129**(1/3)) = 5, here checked at
bounds 4, 5 and 6 to cover the floating-point computation), the convergent
9/2 of 22/5 qualifies (|9*5 - 2*22| = 1 < bound) and its Fermat step finds
the factorization [3, 43]; yet FactorWithGuess returns None for every one of
these bounds, because it applies the Fermat step only to the first
qualifying convergent 4/1 (|4*5 - 1*22| = 2 < bound) and returns None from
inside that branch.  The Fermat step is therefore not applied to each
qualifying convergent, contradicting the claim. -/
theorem factorWithGuess_each_convergent_cex :
    FactorWithGuess 129 22 4 = none ∧
    FactorWithGuess 129 22 5 = none ∧
    FactorWithGuess 129 22 6 = none ∧
    (2, 9, 2) ∈ ContinuedFraction 22 (129 / 22) ∧
    absDiff (9 * (129 / 22)) (2 * 22) < 4 ∧
    fermatStep 129 9 2 = some [3, 43] ∧
    (1 : Nat) < 3 ∧ (3 : Nat) < 129 ∧ 129 % 3 = 0 :=
  ⟨fwg_129_22_none 4 (by decide), fwg_129_22_none 5 (by decide),
   fwg_129_22_none 6 (by decide), by decide, by decide, fermatStep_129_9_2,
   by decide, by decide, by decide⟩

/-- C3, amended: FactorWithGuess applies the Fermat step to the FIRST
continued-fraction convergent u/v of p_0/q_0 with |u*q_0 - v*p_0| < B only
(returning that step's result, None included, and never examining later
convergents), and whenever it returns a non-None result the result is
[g, n / g] for a proper divisor g of n with 1 < g < n. -/
theorem factorWithGuess_first_qualifying (n p0 bound : Nat) :
    (FactorWithGuess n p0 bound =
      match (ContinuedFraction p0 (n / p0)).find?
          (fun t => absDiff (t.2.1 * (n / p0)) (t.2.2 * p0) < bound) with
      | some t => fermatStep n t.2.1 t.2.2
      | none => none) ∧
    (∀ l, FactorWithGuess n p0 bound = some l →
      ∃ g, l = [g, n / g] ∧ 1 < g ∧ g < n ∧ n % g = 0) := by
  constructor
  · rw [FactorWithGuess]
    exact fwgLoop_eq_find n p0 (n / p0) bound (ContinuedFraction p0 (n / p0))
  · intro l h
    rw [FactorWithGuess, fwgLoop_eq_find] at h
    split at h
    · rename_i t heq
      exact fermatStep_sound n t.2.1 t.2.2 l h
    · cases h

/-! ## Theorems for claim C1 -/

theorem pairProd_length : ∀ v : List Nat, (pairProd v).length = (v.length + 1) / 2
  | [] => rfl
  | [_] => by simp [pairProd]
  | a :: b :: rest => by
    simp only [pairProd, List.length_cons]
    rw [pairProd_length rest]
    omega

theorem pair_step : ∀ (v t : List Nat), t.length = v.length →
    (pairT t v).length = (pairProd v).length ∧
    dprod ((pairProd v).zip (pairT t v)) = dprod (v.zip t)
  | [], [], _ => ⟨rfl, rfl⟩
  | [], _ :: _, h => by simp at h
  | [_], [], h => by simp at h
  | [a], [x], _ => by
    constructor
    · rfl
    · show dmul (a * 1, x) (1, 0) = dmul (a, x) (1, 0)
      simp [dmul]
  | _ :: _ :: _, [], h => by simp at h
  | _ :: _ :: _, [_], h => by simp at h
  | a :: b :: r, x :: y :: ts, h => by
    have hlen : ts.length = r.length := by simpa using h
    obtain ⟨ih1, ih2⟩ := pair_step r ts hlen
    constructor
    · simp only [pairProd, pairT, List.length_cons, ih1]
    · show dmul (a * b, x * b + y * a) (dprod ((pairProd r).zip (pairT ts r))) =
        dmul (a, x) (dmul (b, y) (dprod (r.zip ts)))
      rw [ih2]
      simp only [dmul, Prod.mk.injEq]
      constructor <;> ring

theorem dprod_replicate : ∀ values : List Nat,
    dprod (values.zip (List.replicate values.length 1)) = (values.prod, derivSum values)
  | [] => rfl
  | a :: l => by
    show dmul (a, 1) (dprod (l.zip (List.replicate l.length 1))) = _
    rw [dprod_replicate l]
    simp only [dmul, derivSum, List.prod_cons, Prod.mk.injEq]
    constructor <;> ring

theorem eptAux_t : ∀ (fuel : Nat) (values t : List Nat), t.length = values.length →
    values.length ≤ fuel → 1 ≤ values.length →
    (eptAux fuel values t).2 = [(dprod (values.zip t)).2] := by
  intro fuel
  induction fuel with
  | zero => intro values t _ h2 h3; omega
  | succ fuel ih =>
    intro values t hlen hle h1
    by_cases hlen1 : values.length ≤ 1
    · obtain ⟨v, hv⟩ := List.length_eq_one.mp (show values.length = 1 by omega)
      subst hv
      obtain ⟨x, hx⟩ := List.length_eq_one.mp hlen
      subst hx
      rw [eptAux, if_pos hlen1]
      show [x] = [(dmul (v, x) (1, 0)).2]
      simp [dmul]
    · rw [eptAux, if_neg hlen1]
      have h1' := (pair_step values t hlen).1
      have h2' := (pair_step values t hlen).2
      have hpl := pairProd_length values
      have hA : (pairT t values).length = (pairProd values).length := h1'
      have hB : (pairProd values).length ≤ fuel := by omega
      have hC : 1 ≤ (pairProd values).length := by omega
      rw [ih (pairProd values) (pairT t values) hA hB hC, h2']

theorem remStep_cong (m : Nat) : ∀ (values prev : List Nat),
    List.Forall₂ (fun r w => r ≡ m [MOD w]) prev (pairProd values) →
    List.Forall₂ (fun r w => r ≡ m [MOD w]) (remStep prev values) values
  | [], prev, h => by
    cases h
    exact List.Forall₂.nil
  | [a], prev, h => by
    rw [pairProd] at h
    cases h with
    | cons hp hrest =>
      cases hrest
      rw [Nat.mul_one] at hp
      exact List.Forall₂.cons hp List.Forall₂.nil
  | a :: b :: rest, prev, h => by
    rw [pairProd] at h
    cases h with
    | cons hp hrest =>
      refine List.Forall₂.cons ((Nat.mod_modEq _ a).trans (hp.of_dvd (dvd_mul_right a b)))
        (List.Forall₂.cons ((Nat.mod_modEq _ b).trans (hp.of_dvd (dvd_mul_left b a))) ?_)
      exact remStep_cong m rest _ hrest

theorem remTreeAux_append (p : List Nat) : ∀ xs ys : List (List Nat),
    remTreeAux p (xs ++ ys) = remTreeAux (remTreeAux p xs) ys := by
  intro xs
  induction xs generalizing p with
  | nil => intro ys; rfl
  | cons x rest ih => intro ys; rw [List.cons_append, remTreeAux, remTreeAux, ih]

theorem remTree_inv : ∀ (fuel : Nat) (values t : List Nat) (m : Nat),
    t.length = values.length → values.length ≤ fuel → 1 ≤ values.length →
    List.Forall₂ (fun r w => r ≡ m [MOD w])
      (remTreeAux [m] ((values :: (eptAux fuel values t).1).reverse)) values := by
  intro fuel
  induction fuel with
  | zero => intro values t m _ h2 h3; omega
  | succ fuel ih =>
    intro values t m hlen hle h1
    by_cases hlen1 : values.length ≤ 1
    · obtain ⟨v, hv⟩ := List.length_eq_one.mp (show values.length = 1 by omega)
      subst hv
      rw [eptAux, if_pos hlen1]
      show List.Forall₂ _ (remTreeAux (remStep [m] [v]) []) [v]
      exact List.Forall₂.cons (Nat.ModEq.refl m) List.Forall₂.nil
    · rw [eptAux, if_neg hlen1]
      have h1' := (pair_step values t hlen).1
      have hpl := pairProd_length values
      have hA : (pairT t values).length = (pairProd values).length := h1'
      have hB : (pairProd values).length ≤ fuel := by omega
      have hC : 1 ≤ (pairProd values).length := by omega
      have hih := ih (pairProd values) (pairT t values) m hA hB hC
      rw [show (values :: pairProd values ::
            (eptAux fuel (pairProd values) (pairT t values)).1).reverse =
          (pairProd values :: (eptAux fuel (pairProd values) (pairT t values)).1).reverse ++
            [values] from List.reverse_cons _ _]
      rw [remTreeAux_append]
      show List.Forall₂ _ (remTreeAux (remStep _ values) []) values
      exact remStep_cong m values _ hih

theorem dictGcd_eq (m : Nat) : ∀ (uniq rem : List Nat) (v : Nat),
    List.Forall₂ (fun r w => r ≡ m [MOD w]) rem uniq → v ∈ uniq →
    dictGcd uniq rem v = Nat.gcd v m := by
  intro uniq
  induction uniq with
  | nil => intro rem v _ hv; cases hv
  | cons k ks ih =>
    intro rem v h hv
    cases h with
    | cons hp hrest =>
      rename_i r rs
      rw [dictGcd]
      by_cases hkv : k = v
      · rw [if_pos hkv]
        subst hkv
        rw [Nat.gcd_comm k r, Nat.ModEq.gcd_eq hp, Nat.gcd_comm]
      · rw [if_neg hkv]
        rcases List.mem_cons.mp hv with hv1 | hv2
        · exact absurd hv1.symm hkv
        · exact ih rs v hrest hv2

theorem derivSum_cong : ∀ (l : List Nat) (v : Nat), v ∈ l →
    derivSum l ≡ (l.erase v).prod * 1 [MOD v] := by
  intro l
  induction l with
  | nil => intro v hv; cases hv
  | cons a rest ih =>
    intro v hv
    rw [derivSum]
    by_cases hav : a = v
    · subst hav
      rw [List.erase_cons_head]
      have h0 : a * derivSum rest ≡ 0 [MOD a] :=
        (Nat.modEq_zero_iff_dvd).mpr (dvd_mul_right a _)
      calc rest.prod + a * derivSum rest ≡ rest.prod + 0 [MOD a] :=
            (Nat.ModEq.refl rest.prod).add h0
        _ = rest.prod * 1 := by ring
    · have hvrest : v ∈ rest := by
        rcases List.mem_cons.mp hv with h1 | h2
        · exact absurd h1.symm hav
        · exact h2
      rw [List.erase_cons, if_neg (by simp [hav] : ¬((a == v) = true)), List.prod_cons]
      have h0 : rest.prod ≡ 0 [MOD v] :=
        (Nat.modEq_zero_iff_dvd).mpr (List.dvd_prod hvrest)
      have hmul : a * derivSum rest ≡ a * ((rest.erase v).prod * 1) [MOD v] :=
        (ih v hvrest).mul_left a
      calc rest.prod + a * derivSum rest
          ≡ 0 + a * ((rest.erase v).prod * 1) [MOD v] := h0.add hmul
        _ = a * (rest.erase v).prod * 1 := by ring

/-- C1: for a non-empty list of values, a deduplicated list uniq holding
exactly the distinct values (list(set(values)), in any order), and an
optional other-values product O (0 encoding absence, treated as the
multiplier 1), the i-th entry of BatchGCD is
gcd(values[i], O * product of the distinct values other than values[i]);
in particular, for pairwise-distinct values it is
gcd(values[i], O * prod over j distinct from i of values[j]), and a
duplicated value never by itself yields the trivial gcd v. -/
theorem batchGCD_spec (values uniq : List Nat) (O : Nat)
    (hnd : uniq.Nodup)
    (hsub1 : ∀ x ∈ values, x ∈ uniq) (hsub2 : ∀ x ∈ uniq, x ∈ values)
    (hne : values ≠ []) :
    BatchGCD values uniq O =
      values.map (fun v => Nat.gcd v ((if O = 0 then 1 else O) * (uniq.erase v).prod)) ∧
    (values.Nodup →
      BatchGCD values uniq O =
        values.map (fun v => Nat.gcd v ((if O = 0 then 1 else O) * (values.erase v).prod))) := by
  have huniq_ne : 1 ≤ uniq.length := by
    obtain ⟨x, hx⟩ := List.exists_mem_of_ne_nil values hne
    have := hsub1 x hx
    exact List.length_pos.mpr (List.ne_nil_of_mem this)
  have hrep : (List.replicate uniq.length 1).length = uniq.length := by simp
  have ht := eptAux_t uniq.length uniq (List.replicate uniq.length 1) hrep (le_refl _)
    huniq_ne
  have hdp := dprod_replicate uniq
  set dsum := derivSum uniq with hdsum
  have ht2 : (eptAux uniq.length uniq (List.replicate uniq.length 1)).2 = [dsum] := by
    rw [ht, hdp]
  have hept2 : (ExtendedProductTree uniq).2 = dsum := by
    rw [ExtendedProductTree]
    show ((eptAux uniq.length uniq (List.replicate uniq.length 1)).2).headD 1 = dsum
    rw [ht2]
    rfl
  set Oe : Nat := if O = 0 then 1 else O with hOe
  set m : Nat := if O = 0 then (ExtendedProductTree uniq).2
    else (ExtendedProductTree uniq).2 * O with hm
  have hmOe : m = dsum * Oe := by
    rw [hm, hOe, hept2]
    by_cases h0 : O = 0
    · rw [if_pos h0, if_pos h0, Nat.mul_one]
    · rw [if_neg h0, if_neg h0]
  have hinv : List.Forall₂ (fun r w => r ≡ m [MOD w])
      (remTreeAux [m] ((ExtendedProductTree uniq).1.reverse)) uniq := by
    rw [ExtendedProductTree]
    exact remTree_inv uniq.length uniq (List.replicate uniq.length 1) m hrep
      (le_refl _) huniq_ne
  have hkey : ∀ v ∈ values,
      dictGcd uniq (remTreeAux [m] ((ExtendedProductTree uniq).1.reverse)) v =
        Nat.gcd v (Oe * (uniq.erase v).prod) := by
    intro v hv
    have hvu := hsub1 v hv
    rw [dictGcd_eq m uniq _ v hinv hvu]
    have hcong : m ≡ (uniq.erase v).prod * Oe [MOD v] := by
      rw [hmOe]
      have := (derivSum_cong uniq v hvu).mul_right Oe
      rw [Nat.mul_one] at this
      exact this
    rw [Nat.gcd_comm v m, Nat.ModEq.gcd_eq hcong, Nat.gcd_comm, Nat.mul_comm]
  have hbg : BatchGCD values uniq O =
      values.map (fun v => Nat.gcd v (Oe * (uniq.erase v).prod)) := by
    rw [BatchGCD]
    exact List.map_congr_left hkey
  refine ⟨hbg, ?_⟩
  intro hndv
  rw [hbg]
  apply List.map_congr_left
  intro v hv
  have hperm : uniq.Perm values :=
    (List.perm_ext_iff_of_nodup hnd hndv).mpr (fun x => ⟨hsub2 x, hsub1 x⟩)
  rw [List.Perm.prod_eq (hperm.erase v)]

theorem batchGCD_spec_witness :
    BatchGCD [15, 21, 15] [21, 15] 0 =
      [15, 21, 15].map
        (fun v => Nat.gcd v ((if (0 : Nat) = 0 then 1 else 0) * (([21, 15].erase v)).prod)) :=
  (batchGCD_spec [15, 21, 15] [21, 15] 0 (by decide) (by decide) (by decide)
    (by decide)).1

end Paranoid
